import Mathlib

/-!
# Verification of the NAIS2 prompt wildcard/fragment expansion engine

Shallow embedding of `src/lib/fragment-processor.ts` and of the fragment
store accessors (`getFileByPath`, `getRandomLine`, `getSequentialLine`,
`resetSequentialCounter`) from the wildcard store module.

Modelling choices:
* JS strings are embedded as `List Char` (`Chars`).  The JS string
  primitives used by the source (`trim`, `split` on a one-character
  separator, `toLowerCase`, `includes`, `startsWith`, `slice(1)`,
  `lastIndexOf`) are given executable definitions below with the same
  semantics (for `toLowerCase`, ASCII case mapping, which is what the
  source relies on for fragment paths).
* `Math.floor(Math.random() * n)` produces an arbitrary index in
  `[0, n)`.  Randomness is embedded as a tape of natural numbers carried
  in the state: each draw consumes the head `r` of the tape and yields
  `r % n`, so every index below `n` is reachable and no other value is.
* The zustand store state is the record `St`: the file metadata list,
  the IndexedDB content table (association list from content id to the
  outcome of `loadContent` - either the stored lines or a rejected
  promise), the sequential counter table, and the random tape.
* Asynchrony and promise rejection are embedded with `Except`: a store
  read that rejects surfaces as `ExpErr.storeFail`.  `console.warn` has
  no observable effect on the result and is not modelled.
* The source's stage-1 recursion on resolved fragment lines has no
  termination bound (a cyclic fragment diverges in the source), so the
  embedded `processFileWildcards` takes a fuel parameter and returns
  `ExpErr.fuelOut` when the recursion depth exceeds it; any fuel larger
  than the nesting depth of the fragment references gives the source
  behaviour.
* The two regexes `/<([^<>]+)>/g` and `/\(([^()]+\/[^()]+)\)/g` are
  embedded as single-pass scanners (`scanAux`, `parenAux`): a match of
  the first is a maximal bracket-free span between a `<` and the next
  `>`, i.e. the opening `<` of a match is the last `<` before its `>`;
  a match of the second is a parenthesis-free span between `(` and `)`
  that contains a `/` with at least one character on each side
  (`[^()]+\/[^()]+`).  The scanners keep the candidate interior
  accumulated since the last unmatched opening bracket, which is
  exactly the set of matches the JS global regex finds, and - for the
  `replace` form - substitute left to right without rescanning
  replacement text, as `String.replace` does.
-/

namespace NAIS2

abbrev Chars := List Char

/-- JS `String.prototype.trim`: drop whitespace from both ends. -/
def jsTrim (s : Chars) : Chars :=
  ((s.dropWhile Char.isWhitespace).reverse.dropWhile Char.isWhitespace).reverse

/-- JS `s.split(sep)` for a one-character separator: `"".split` is `[""]`,
separators at the ends produce empty segments. -/
def splitOnChar (sep : Char) : Chars → List Chars
  | [] => [[]]
  | c :: rest =>
    if c = sep then [] :: splitOnChar sep rest
    else
      match splitOnChar sep rest with
      | [] => [[c]]
      | g :: gs => (c :: g) :: gs

/-- JS `s.includes(t)` (substring containment). -/
def hasSubstr (needle : Chars) : Chars → Bool
  | [] => needle.isEmpty
  | c :: rest => needle.isPrefixOf (c :: rest) || hasSubstr needle rest

/-- JS `s.includes(c)` for a single character. -/
def hasChar (s : Chars) (c : Char) : Bool :=
  s.any (fun d => decide (d = c))

/-- JS `s.toLowerCase()` (ASCII case mapping, via `Char.toLower`). -/
def lowerChars (s : Chars) : Chars :=
  s.map Char.toLower

/-- The option-list idiom of the source: split on a separator, trim
each option, drop the empty ones
(`x.split(sep).map(o => o.trim()).filter(o => o.length > 0)`). -/
def splitOptions (sep : Char) (s : Chars) : List Chars :=
  ((splitOnChar sep s).map jsTrim).filter (fun o => !o.isEmpty)

structure FileMeta where
  id : Chars
  name : Chars
  folder : Chars
  lineCount : Nat
deriving DecidableEq

/-- Outcome of `loadContent(id)`: the stored lines (an IndexedDB read of
a missing id resolves to `[]` via `request.result || []`), or a rejected
promise. -/
inductive LoadResult where
  | ok (lines : List Chars)
  | err
deriving DecidableEq

instance {ε α : Type} [DecidableEq ε] [DecidableEq α] : DecidableEq (Except ε α) := fun x y =>
  match x, y with
  | .ok a, .ok b =>
    match decEq a b with
    | isTrue h => isTrue (h ▸ rfl)
    | isFalse h => isFalse (fun hc => h (Except.ok.inj hc))
  | .error a, .error b =>
    match decEq a b with
    | isTrue h => isTrue (h ▸ rfl)
    | isFalse h => isFalse (fun hc => h (Except.error.inj hc))
  | .ok _, .error _ => isFalse (fun hc => Except.noConfusion hc)
  | .error _, .ok _ => isFalse (fun hc => Except.noConfusion hc)

/-- The mutable state threaded through an expansion: the fragment store
(the `files` metadata list, the content table and the sequential
counters) plus the random tape. -/
structure St where
  files : List FileMeta
  contents : List (Chars × LoadResult)
  sequentialCounters : List (Chars × Nat)
  tape : List Nat
deriving DecidableEq

/-- One random draw: `Math.floor(Math.random() * n)`.  Consumes the head
of the tape and reduces it modulo `n`, giving an arbitrary index in
`[0, n)` (the tape value is arbitrary, so every index is reachable). -/
def randIndex (n : Nat) (st : St) : Nat × St :=
  ((st.tape.headD 0) % n, { st with tape := st.tape.tail })

/-- Source `sequentialCounters[path] || 0` (the string-keyed counter object is
embedded as an association list; keys are unique in every reachable
state). -/
def lookupCounter : List (Chars × Nat) → Chars → Nat
  | [], _ => 0
  | q :: rest, p => if q.1 = p then q.2 else lookupCounter rest p

/-- Source `{ ...state.sequentialCounters, [path]: v }`: update the key in
place, or append it. -/
def setCounter : List (Chars × Nat) → Chars → Nat → List (Chars × Nat)
  | [], p, v => [(p, v)]
  | q :: rest, p, v => if q.1 = p then (p, v) :: rest else q :: setCounter rest p v

/-- One sequential read bumps the counter of `p` by one. -/
def bump (m : List (Chars × Nat)) (p : Chars) : List (Chars × Nat) :=
  setCounter m p (lookupCounter m p + 1)

/-- Predicate of `getFileByPath`: the file's lowercased
`folder/name` form (bare `name` when the folder is empty) or its
lowercased bare name equals the normalized query. -/
def fileMatches (f : FileMeta) (normalizedPath : Chars) : Bool :=
  let filePath :=
    if f.folder.isEmpty then lowerChars f.name
    else lowerChars (f.folder ++ '/' :: f.name)
  decide (filePath = normalizedPath) || decide (lowerChars f.name = normalizedPath)

/-- Source `getFileByPath(path)`: first stored file matching the trimmed,
lowercased query. -/
def getFileByPath (st : St) (path : Chars) : Option FileMeta :=
  let normalizedPath := lowerChars (jsTrim path)
  st.files.find? (fun f => fileMatches f normalizedPath)

/-- The IndexedDB content table lookup: a missing id resolves to `[]`
(`request.result || []`). -/
def lookupContent : List (Chars × LoadResult) → Chars → LoadResult
  | [], _ => .ok []
  | p :: rest, id => if p.1 = id then p.2 else lookupContent rest id

/-- Source `loadFileContent(id)` / `loadContent(id)` (the cache layer is
semantically transparent: it returns the stored content). -/
def loadContent (st : St) (id : Chars) : LoadResult :=
  lookupContent st.contents id

/-- Source `getRandomLine(path)`: uniform random line, `none` if the path is
unknown or the file has no lines; a rejected content read propagates. -/
def getRandomLine (path : Chars) (st : St) : Except Unit (Option Chars × St) :=
  match getFileByPath st path with
  | none => .ok (none, st)
  | some fileMeta =>
    match loadContent st fileMeta.id with
    | .err => .error ()
    | .ok content =>
      if content.length = 0 then .ok (none, st)
      else
        let (i, st') := randIndex content.length st
        .ok (some (content.getD i []), st')

/-- Source `getSequentialLine(path)`: reads `content[counter % lineCount]`,
then stores `counter + 1` (the stored value is never clamped). -/
def getSequentialLine (path : Chars) (st : St) : Except Unit (Option Chars × St) :=
  match getFileByPath st path with
  | none => .ok (none, st)
  | some fileMeta =>
    match loadContent st fileMeta.id with
    | .err => .error ()
    | .ok content =>
      if content.length = 0 then .ok (none, st)
      else
        let currentIndex := lookupCounter st.sequentialCounters path
        let line := content.getD (currentIndex % content.length) []
        .ok (some line,
          { st with sequentialCounters := setCounter st.sequentialCounters path (currentIndex + 1) })

/-- Source `resetSequentialCounter(path?)`: deletes one counter entry when
given a truthy path; clears the whole table when the argument is
omitted or is the empty string (JS `if (path)` is false for `""`). -/
def resetSequentialCounter (path : Option Chars) (st : St) : St :=
  match path with
  | some p =>
    if p.isEmpty then { st with sequentialCounters := [] }
    else { st with sequentialCounters := st.sequentialCounters.filter (fun q => !decide (q.1 = p)) }
  | none => { st with sequentialCounters := [] }

/-- Modelled from the spec: `normalizeFragmentPath` is exported by the
fragment store module, which is not among the provided sources (only
its callers are).  Per the spec it trims the path, converts backslashes
to forward slashes, and strips leading and trailing slashes. -/
def normalizeFragmentPath (s : Chars) : Chars :=
  let t := (jsTrim s).map (fun c => if c = '\\' then '/' else c)
  ((t.dropWhile (fun c => decide (c = '/'))).reverse.dropWhile (fun c => decide (c = '/'))).reverse

/-! ## Stage 1: `/<([^<>]+)>/g` matcher -/

/-- Characters excluded by `[^<>]`. -/
def isAngle (c : Char) : Bool := decide (c = '<') || decide (c = '>')

/-- Scanner for `/<([^<>]+)>/g` (`filePattern.exec` loop): returns the
captured interiors of all matches in order.  `acc` is the reversed
candidate interior accumulated since the last unmatched `<`. -/
def scanAux (acc : Option Chars) : Chars → List Chars
  | [] => []
  | c :: rest =>
    if c = '<' then scanAux (some []) rest
    else if c = '>' then
      match acc with
      | some a => if a.isEmpty then scanAux none rest else a.reverse :: scanAux none rest
      | none => scanAux none rest
    else
      match acc with
      | some a => scanAux (some (c :: a)) rest
      | none => scanAux none rest

/-- The interiors of all `<...>` matches of a prompt. -/
def scanInteriors (s : Chars) : List Chars := scanAux none s

/-- Text `match[0]` reconstructed from the captured interior. -/
def matchText (interior : Chars) : Chars := '<' :: interior ++ ['>']

/-- Source `result.lastIndexOf(match)`: greatest index at which `pat` occurs
in `s`. -/
def lastIndexOf (pat s : Chars) : Option Nat :=
  ((List.range (s.length + 1)).filter (fun i => pat.isPrefixOf (s.drop i))).getLast?

/-- One step of the reverse-order substitution loop: replace the last
occurrence of `pat` by `repl` (no occurrence: unchanged). -/
def replaceLast (pat repl s : Chars) : Chars :=
  match lastIndexOf pat s with
  | none => s
  | some i => s.take i ++ repl ++ s.drop (i + pat.length)

/-- Errors of the embedded engine: a rejected fragment store read, or
exhaustion of the recursion fuel (the source has no recursion bound;
see the header). -/
inductive ExpErr where
  | storeFail
  | fuelOut
deriving DecidableEq

/-- The per-match resolver (the body of `matches.map(async ...)` in
`processFileWildcards`), parameterized by the recursive re-entry `pfw`
into stage 1 for resolved fragment lines. -/
def resolveOneF (pfw : Chars → St → Except ExpErr (Chars × St))
    (interior : Chars) (st : St) : Except ExpErr (Chars × St) :=
  let trimmed := jsTrim interior
  if hasChar trimmed '|' then
    let options := splitOptions '|' trimmed
    if options.isEmpty then .ok (matchText interior, st)
    else
      let (i, st') := randIndex options.length st
      .ok (options.getD i [], st')
  else
    let isSequential := ['*'].isPrefixOf trimmed
    let path := normalizeFragmentPath (if isSequential then trimmed.tail else trimmed)
    if path.isEmpty then .ok (matchText interior, st)
    else
      match (if isSequential then getSequentialLine path st else getRandomLine path st) with
      | .error _ => .error .storeFail
      | .ok (none, st') => .ok (matchText interior, st')
      | .ok (some line, st') => pfw line st'

/-- Resolves the discovered matches left to right (the `Promise.all`
fan-out; content-cache promise resolution keeps the store mutations in
discovery order), returning `(match, replacement)` pairs. -/
def resolveAllF (pfw : Chars → St → Except ExpErr (Chars × St)) :
    List Chars → St → Except ExpErr (List (Chars × Chars) × St)
  | [], st => .ok ([], st)
  | interior :: rest, st =>
    match resolveOneF pfw interior st with
    | .error e => .error e
    | .ok (repl, st') =>
      match resolveAllF pfw rest st' with
      | .error e => .error e
      | .ok (reps, st'') => .ok ((matchText interior, repl) :: reps, st'')

/-- Source `processFileWildcards(prompt)`: finds all `<...>` matches, resolves
them (inline lists, sequential or random fragment reads, recursing into
resolved lines), then substitutes in reverse discovery order, each step
replacing the last occurrence of the original match text. -/
def processFileWildcards : Nat → Chars → St → Except ExpErr (Chars × St)
  | 0, _, _ => .error .fuelOut
  | fuel + 1, prompt, st =>
    let interiors := scanInteriors prompt
    if interiors.isEmpty then .ok (prompt, st)
    else
      match resolveAllF (processFileWildcards fuel) interiors st with
      | .error e => .error e
      | .ok (reps, st') =>
        .ok (reps.reverse.foldl (fun acc mr => replaceLast mr.1 mr.2 acc) prompt, st')

/-! ## Stage 2: `/\(([^()]+\/[^()]+)\)/g` replace -/

/-- A parenthesis-free interior `run` matches `[^()]+\/[^()]+` exactly
when it contains a `/` that is neither its first nor its last
character. -/
def hasMidSlash (run : Chars) : Bool :=
  hasChar run.tail.dropLast '/'

/-- The replacement callback of `processParenthesisWildcards`: split
the interior on `/`, trim, drop empties; two or more options: random
pick; otherwise the bare interior (parentheses dropped). -/
def parenReplace (run : Chars) (st : St) : Chars × St :=
  let options := splitOptions '/' run
  if options.length ≤ 1 then (run, st)
  else
    let (i, st') := randIndex options.length st
    (options.getD i [], st')

/-- The literal text of a pending (still unmatched) stage-2 candidate:
nothing, or the `(` plus the accumulated interior. -/
def pendingParen : Option Chars → Chars
  | none => []
  | some a => '(' :: a.reverse

/-- Scanner/replacer for `/\(([^()]+\/[^()]+)\)/g` (`String.replace`
with a global regex): left-to-right, replacement text not rescanned.
`acc` is the reversed candidate interior accumulated since the last
unmatched `(`. -/
def parenAux (st : St) (acc : Option Chars) : Chars → Chars × St
  | [] => ((match acc with | none => [] | some a => '(' :: a.reverse), st)
  | c :: rest =>
    if c = '(' then
      match acc with
      | none => parenAux st (some []) rest
      | some a =>
        let (out, st') := parenAux st (some []) rest
        ('(' :: a.reverse ++ out, st')
    else if c = ')' then
      match acc with
      | none =>
        let (out, st') := parenAux st none rest
        (')' :: out, st')
      | some a =>
        let run := a.reverse
        if hasMidSlash run then
          let (repl, st') := parenReplace run st
          let (out, st'') := parenAux st' none rest
          (repl ++ out, st'')
        else
          let (out, st') := parenAux st none rest
          ('(' :: run ++ ')' :: out, st')
    else
      match acc with
      | none =>
        let (out, st') := parenAux st none rest
        (c :: out, st')
      | some a => parenAux st (some (c :: a)) rest

/-- Source `processParenthesisWildcards(prompt)`. -/
def processParenthesisWildcards (s : Chars) (st : St) : Chars × St :=
  parenAux st none s

/-- Test form of the stage-2 scanner, for `hasWildcards`'s
`/\([^()]+\/[^()]+\)/.test(prompt)`. -/
def parenTestAux (acc : Option Chars) : Chars → Bool
  | [] => false
  | c :: rest =>
    if c = '(' then parenTestAux (some []) rest
    else if c = ')' then
      match acc with
      | none => parenTestAux none rest
      | some a => hasMidSlash a.reverse || parenTestAux none rest
    else
      match acc with
      | none => parenTestAux none rest
      | some a => parenTestAux (some (c :: a)) rest

def parenHasMatch (s : Chars) : Bool := parenTestAux none s

/-! ## Stage 3: bare slash options inside comma-delimited tags -/

/-- The guard of `processSimpleWildcards` on a trimmed tag: contains a
slash, does not start with `http`, does not contain `://`, contains no
space. -/
def simpleCond (trimmed : Chars) : Bool :=
  hasChar trimmed '/' &&
  !("http".data.isPrefixOf trimmed) &&
  !(hasSubstr "://".data trimmed) &&
  !(hasChar trimmed ' ')

/-- The body of `tags.map(...)` in `processSimpleWildcards`. -/
def processTag (tag : Chars) (st : St) : Chars × St :=
  let trimmed := jsTrim tag
  if simpleCond trimmed then
    let options := splitOptions '/' trimmed
    if options.length > 1 then
      let (i, st') := randIndex options.length st
      (options.getD i [], st')
    else (trimmed, st)
  else (trimmed, st)

def processTags : List Chars → St → List Chars × St
  | [], st => ([], st)
  | t :: ts, st =>
    let (o, st') := processTag t st
    let (os, st'') := processTags ts st'
    (o :: os, st'')

/-- Source `processSimpleWildcards(prompt)`: split on commas, process each
tag, rejoin with `", "`. -/
def processSimpleWildcards (s : Chars) (st : St) : Chars × St :=
  let (outs, st') := processTags (splitOnChar ',' s) st
  (List.intercalate [',', ' '] outs, st')

/-! ## The pipeline -/

/-- Source `processWildcards(prompt)` (the public `expand`): empty prompt is
returned as is; otherwise stage 1 (file/inline/sequential references),
then stage 2 (parenthesized groups), then stage 3 (bare slash
options). -/
def processWildcards (fuel : Nat) (prompt : Chars) (st : St) : Except ExpErr (Chars × St) :=
  if prompt.isEmpty then .ok (prompt, st)
  else
    match processFileWildcards fuel prompt st with
    | .error e => .error e
    | .ok (r1, st1) =>
      let (r2, st2) := processParenthesisWildcards r1 st1
      let (r3, st3) := processSimpleWildcards r2 st2
      .ok (r3, st3)

/-- Source `hasWildcards(prompt)` (the public `hasChoicePoints`). -/
def hasWildcards (prompt : Chars) : Bool :=
  if prompt.isEmpty then false
  else if !(scanInteriors prompt).isEmpty then true
  else if parenHasMatch prompt then true
  else (splitOnChar ',' prompt).any (fun tag => simpleCond (jsTrim tag))

/-- Source `resetWildcardCounters(path?)`: delegates to the store's
`resetSequentialCounter`. -/
def resetWildcardCounters (path : Option Chars) (st : St) : St :=
  resetSequentialCounter path st

/-! ## Log-instrumented stage 1

The frame claim speaks about the sequential references *actually
resolved during a call*.  To state that set, the following variants of
the stage-1 functions repeat the same computation and additionally
return the normalized paths of the sequential references resolved, in
resolution order: a path is appended exactly where `getSequentialLine`
returns a line (the one place the counter table is written).
`processWildcards_logged` below proves that erasing the log gives back
the original pipeline, so the log is an observation of the same run,
not a different semantics. -/

/-- Erase the resolution log. -/
def exceptFst {β : Type} : Except ExpErr (β × List Chars) → Except ExpErr β
  | .error e => .error e
  | .ok (x, _) => .ok x

/-- Log-instrumented `resolveOneF`: same result, plus the normalized
paths of the sequential references resolved inside this match. -/
def resolveOneL (pfwL : Chars → St → Except ExpErr ((Chars × St) × List Chars))
    (interior : Chars) (st : St) : Except ExpErr ((Chars × St) × List Chars) :=
  let trimmed := jsTrim interior
  if hasChar trimmed '|' then
    let options := splitOptions '|' trimmed
    if options.isEmpty then .ok ((matchText interior, st), [])
    else
      let (i, st') := randIndex options.length st
      .ok ((options.getD i [], st'), [])
  else
    let isSequential := ['*'].isPrefixOf trimmed
    let path := normalizeFragmentPath (if isSequential then trimmed.tail else trimmed)
    if path.isEmpty then .ok ((matchText interior, st), [])
    else if isSequential then
      match getSequentialLine path st with
      | .error _ => .error .storeFail
      | .ok (none, st') => .ok ((matchText interior, st'), [])
      | .ok (some line, st') =>
        match pfwL line st' with
        | .error e => .error e
        | .ok ((r, st''), log) => .ok ((r, st''), path :: log)
    else
      match getRandomLine path st with
      | .error _ => .error .storeFail
      | .ok (none, st') => .ok ((matchText interior, st'), [])
      | .ok (some line, st') => pfwL line st'

/-- Log-instrumented `resolveAllF`: the logs of the matches, in
discovery order. -/
def resolveAllL (pfwL : Chars → St → Except ExpErr ((Chars × St) × List Chars)) :
    List Chars → St → Except ExpErr ((List (Chars × Chars) × St) × List Chars)
  | [], st => .ok (([], st), [])
  | interior :: rest, st =>
    match resolveOneL pfwL interior st with
    | .error e => .error e
    | .ok ((repl, st'), log1) =>
      match resolveAllL pfwL rest st' with
      | .error e => .error e
      | .ok ((reps, st''), log2) =>
        .ok (((matchText interior, repl) :: reps, st''), log1 ++ log2)

/-- Log-instrumented `processFileWildcards`. -/
def processFileWildcardsL : Nat → Chars → St → Except ExpErr ((Chars × St) × List Chars)
  | 0, _, _ => .error .fuelOut
  | fuel + 1, prompt, st =>
    let interiors := scanInteriors prompt
    if interiors.isEmpty then .ok ((prompt, st), [])
    else
      match resolveAllL (processFileWildcardsL fuel) interiors st with
      | .error e => .error e
      | .ok ((reps, st'), log) =>
        .ok ((reps.reverse.foldl (fun acc mr => replaceLast mr.1 mr.2 acc) prompt, st'), log)

/-- Log-instrumented `processWildcards`: stages 2 and 3 perform no
store reads, so the log is that of stage 1. -/
def processWildcardsL (fuel : Nat) (prompt : Chars) (st : St) :
    Except ExpErr ((Chars × St) × List Chars) :=
  if prompt.isEmpty then .ok ((prompt, st), [])
  else
    match processFileWildcardsL fuel prompt st with
    | .error e => .error e
    | .ok ((r1, st1), log) =>
      let (r2, st2) := processParenthesisWildcards r1 st1
      let (r3, st3) := processSimpleWildcards r2 st2
      .ok ((r3, st3), log)

/-! ## Notions used by the claim statements -/

/-- Stage 3's comma normalization: each comma segment trimmed, segments
rejoined with a comma and a space. -/
def commaNormalize (s : Chars) : Chars :=
  List.intercalate [',', ' '] ((splitOnChar ',' s).map jsTrim)

/-- The counter table evolves from `m` to `m'` by a sequence of single
increments, each at a key that is the normalization of some reference
text (and nonempty, since empty normalized paths are rejected before
any store read). -/
def CounterEvo (m m' : List (Chars × Nat)) : Prop :=
  ∃ l : List Chars,
    (∀ q ∈ l, (∃ t, q = normalizeFragmentPath t) ∧ q ≠ []) ∧ m' = l.foldl bump m

/-- The store's file list, content table and counter table relation for
the frame claim: files and contents are untouched and the counters only
receive increments. -/
def StoreFrame (st st' : St) : Prop :=
  st'.files = st.files ∧ st'.contents = st.contents ∧
    CounterEvo st.sequentialCounters st'.sequentialCounters

/-- No content read of this store rejects. -/
def OkStore (st : St) : Prop :=
  ∀ pr ∈ st.contents, pr.2 ≠ LoadResult.err

/-- The lines of a successful content entry (for stating conditions on
every stored line). -/
def okLines : LoadResult → List Chars
  | .ok c => c
  | .err => []

/-- The prompt contains no sequential reference: no `<...>` match whose
trimmed interior starts with `*`. -/
def PromptSeqFree (p : Chars) : Prop :=
  ∀ i ∈ scanInteriors p, ¬ (['*'].isPrefixOf (jsTrim i) = true)

/-- No stored fragment line contains a sequential reference, so no
recursive resolution can perform a sequential read. -/
def StoreSeqFree (st : St) : Prop :=
  ∀ pr ∈ st.contents, ∀ line ∈ okLines pr.2, PromptSeqFree line

/-! ## Concrete states used by witnesses and counterexamples -/

/-- A store with no files and no pending counters, with a given random
tape. -/
def emptyStT (t : List Nat) : St := ⟨[], [], [], t⟩

/-- The `hair` fragment of the spec's sequential example, with lines
`a`, `b`, `c`, at a given counter value. -/
def hairStC (n : Nat) : St :=
  ⟨[⟨"1".data, "hair".data, [], 3⟩],
   [("1".data, .ok ["a".data, "b".data, "c".data])],
   if n = 0 then [] else [("hair".data, n)], []⟩

/-- A store whose single fragment has a rejecting content read. -/
def failSt : St := ⟨[⟨"1".data, "f".data, [], 1⟩], [("1".data, .err)], [], []⟩

/-- Two files with the bare name `x` in different folders. -/
def twoSt : St :=
  ⟨[⟨"1".data, "x".data, "f1".data, 1⟩, ⟨"2".data, "x".data, "f2".data, 1⟩], [], [], []⟩

/-! ## Helper lemmas -/

theorem isPrefixOf_exists {l₁ l₂ : Chars} : l₁.isPrefixOf l₂ = true ↔ ∃ t, l₂ = l₁ ++ t := by
  induction l₁ generalizing l₂ with
  | nil => simp [List.isPrefixOf]
  | cons a as ih =>
    cases l₂ with
    | nil => simp [List.isPrefixOf]
    | cons b bs =>
      simp only [List.isPrefixOf, Bool.and_eq_true, beq_iff_eq, ih, List.cons_append,
        List.cons.injEq]
      constructor
      · rintro ⟨rfl, t, rfl⟩
        exact ⟨t, rfl, rfl⟩
      · rintro ⟨t, rfl, rfl⟩
        exact ⟨rfl, t, rfl⟩

theorem find?_first {α : Type} {p : α → Bool} {l : List α} {a : α} (h : l.find? p = some a) :
    p a = true ∧ ∃ s t, l = s ++ a :: t ∧ ∀ x ∈ s, p x = false := by
  induction l with
  | nil => cases h
  | cons b rest ih =>
    by_cases hb : p b = true
    · rw [List.find?_cons_of_pos _ hb] at h
      cases h
      exact ⟨hb, [], rest, rfl, by simp⟩
    · rw [List.find?_cons_of_neg _ (by simpa using hb)] at h
      obtain ⟨hpa, s, t, rfl, hs⟩ := ih h
      refine ⟨hpa, b :: s, t, rfl, ?_⟩
      intro x hx
      rcases List.mem_cons.mp hx with rfl | hx
      · simpa using hb
      · exact hs x hx

theorem lookupCounter_set_self (m : List (Chars × Nat)) (p : Chars) (v : Nat) :
    lookupCounter (setCounter m p v) p = v := by
  induction m with
  | nil => simp [setCounter, lookupCounter]
  | cons q rest ih =>
    by_cases h : q.1 = p
    · simp [setCounter, h, lookupCounter]
    · simp [setCounter, h, lookupCounter, ih]

theorem lookupCounter_set_ne (m : List (Chars × Nat)) (p : Chars) (v : Nat) (x : Chars)
    (hx : x ≠ p) : lookupCounter (setCounter m p v) x = lookupCounter m x := by
  induction m with
  | nil => simp [setCounter, lookupCounter, Ne.symm hx]
  | cons q rest ih =>
    by_cases h : q.1 = p
    · have hqx : q.1 ≠ x := by rw [h]; exact Ne.symm hx
      simp [setCounter, h, lookupCounter, Ne.symm hx, hqx]
    · by_cases hq : q.1 = x
      · simp [setCounter, h, lookupCounter, hq, hx]
      · simp [setCounter, h, lookupCounter, hq, ih]

theorem lookupCounter_bump_self (m : List (Chars × Nat)) (p : Chars) :
    lookupCounter (bump m p) p = lookupCounter m p + 1 :=
  lookupCounter_set_self m p _

theorem lookupCounter_bump_ne (m : List (Chars × Nat)) (p x : Chars) (hx : x ≠ p) :
    lookupCounter (bump m p) x = lookupCounter m x :=
  lookupCounter_set_ne m p _ x hx

theorem lookupCounter_foldl_bump (l : List Chars) (m : List (Chars × Nat)) (q : Chars) :
    lookupCounter (l.foldl bump m) q = lookupCounter m q + l.count q := by
  induction l generalizing m with
  | nil => simp
  | cons a as ih =>
    rw [List.foldl_cons, ih, List.count_cons]
    by_cases h : q = a
    · subst h
      rw [lookupCounter_bump_self]
      simp
      omega
    · have h' : a ≠ q := fun hh => h hh.symm
      rw [lookupCounter_bump_ne m a q h]
      simp [h']

theorem lookupCounter_erase_self (m : List (Chars × Nat)) (p : Chars) :
    lookupCounter (m.filter (fun q => !decide (q.1 = p))) p = 0 := by
  induction m with
  | nil => simp [lookupCounter]
  | cons q rest ih =>
    by_cases h : q.1 = p
    · simpa [List.filter_cons, h] using ih
    · simpa [List.filter_cons, h, lookupCounter] using ih

theorem lookupCounter_erase_ne (m : List (Chars × Nat)) (p x : Chars) (hx : x ≠ p) :
    lookupCounter (m.filter (fun q => !decide (q.1 = p))) x = lookupCounter m x := by
  induction m with
  | nil => simp
  | cons q rest ih =>
    by_cases h : q.1 = p
    · simpa [List.filter_cons, h, lookupCounter, Ne.symm hx] using ih
    · by_cases hq : q.1 = x
      · simp [List.filter_cons, h, lookupCounter, hq, hx]
      · simpa [List.filter_cons, h, lookupCounter, hq] using ih

theorem lastIndexOf_some {pat s : Chars} {i : Nat} (h : lastIndexOf pat s = some i) :
    pat.isPrefixOf (s.drop i) = true := by
  unfold lastIndexOf at h
  obtain ⟨hne, hEq⟩ := List.mem_getLast?_eq_getLast (Option.mem_def.mpr h)
  have hmem : i ∈ (List.range (s.length + 1)).filter (fun j => pat.isPrefixOf (s.drop j)) := by
    rw [hEq]
    exact List.getLast_mem hne
  exact (List.mem_filter.mp hmem).2

theorem replaceLast_self (pat s : Chars) : replaceLast pat pat s = s := by
  unfold replaceLast
  cases h : lastIndexOf pat s with
  | none => rfl
  | some i =>
    obtain ⟨t, ht⟩ := isPrefixOf_exists.mp (lastIndexOf_some h)
    have hdrop : s.drop (i + pat.length) = t := by
      rw [← List.drop_drop, ht, List.drop_left]
    show s.take i ++ pat ++ s.drop (i + pat.length) = s
    rw [hdrop, List.append_assoc, ← ht, List.take_append_drop]

theorem counterEvo_refl (m : List (Chars × Nat)) : CounterEvo m m :=
  ⟨[], by simp, rfl⟩

theorem counterEvo_bump (m : List (Chars × Nat)) (p : Chars)
    (h1 : ∃ t, p = normalizeFragmentPath t) (h2 : p ≠ []) : CounterEvo m (bump m p) :=
  ⟨[p], by simp [h1, h2], rfl⟩

theorem counterEvo_trans {a b c : List (Chars × Nat)} (h1 : CounterEvo a b)
    (h2 : CounterEvo b c) : CounterEvo a c := by
  obtain ⟨l1, hl1, rfl⟩ := h1
  obtain ⟨l2, hl2, rfl⟩ := h2
  refine ⟨l1 ++ l2, ?_, by rw [List.foldl_append]⟩
  intro q hq
  rcases List.mem_append.mp hq with hq | hq
  · exact hl1 q hq
  · exact hl2 q hq

theorem storeFrame_refl (st : St) : StoreFrame st st :=
  ⟨rfl, rfl, counterEvo_refl _⟩

theorem storeFrame_trans {a b c : St} (h1 : StoreFrame a b) (h2 : StoreFrame b c) :
    StoreFrame a c :=
  ⟨h2.1.trans h1.1, h2.2.1.trans h1.2.1, counterEvo_trans h1.2.2 h2.2.2⟩

theorem storeFrame_tape (st : St) (t : List Nat) : StoreFrame st { st with tape := t } :=
  ⟨rfl, rfl, counterEvo_refl _⟩

theorem getRandomLine_ok_none {path : Chars} {st st' : St}
    (h : getRandomLine path st = .ok (none, st')) : st' = st := by
  unfold getRandomLine at h
  cases hf : getFileByPath st path with
  | none =>
    rw [hf] at h
    simpa using h.symm
  | some meta =>
    rw [hf] at h
    dsimp only at h
    cases hc : loadContent st meta.id with
    | err => rw [hc] at h; simp at h
    | ok content =>
      rw [hc] at h
      dsimp only at h
      by_cases hlen : content.length = 0
      · rw [if_pos hlen] at h
        simpa using h.symm
      · rw [if_neg hlen] at h
        simp [randIndex] at h

theorem getSequentialLine_ok_none {path : Chars} {st st' : St}
    (h : getSequentialLine path st = .ok (none, st')) : st' = st := by
  unfold getSequentialLine at h
  cases hf : getFileByPath st path with
  | none =>
    rw [hf] at h
    simpa using h.symm
  | some meta =>
    rw [hf] at h
    dsimp only at h
    cases hc : loadContent st meta.id with
    | err => rw [hc] at h; simp at h
    | ok content =>
      rw [hc] at h
      dsimp only at h
      by_cases hlen : content.length = 0
      · rw [if_pos hlen] at h
        simpa using h.symm
      · rw [if_neg hlen] at h
        simp at h

theorem getRandomLine_ok_some {path : Chars} {st st' : St} {line : Chars}
    (h : getRandomLine path st = .ok (some line, st')) :
    st' = { st with tape := st.tape.tail } ∧
    ∃ meta content, getFileByPath st path = some meta ∧
      loadContent st meta.id = .ok content ∧ line ∈ content := by
  unfold getRandomLine at h
  cases hf : getFileByPath st path with
  | none => rw [hf] at h; simp at h
  | some meta =>
    rw [hf] at h
    dsimp only at h
    cases hc : loadContent st meta.id with
    | err => rw [hc] at h; simp at h
    | ok content =>
      rw [hc] at h
      dsimp only at h
      by_cases hlen : content.length = 0
      · rw [if_pos hlen] at h; simp at h
      · rw [if_neg hlen] at h
        simp only [randIndex, Except.ok.injEq, Prod.mk.injEq, Option.some.injEq] at h
        have hlt : st.tape.headD 0 % content.length < content.length :=
          Nat.mod_lt _ (Nat.pos_of_ne_zero hlen)
        refine ⟨h.2.symm, meta, content, rfl, hc, ?_⟩
        rw [← h.1, List.getD_eq_getElem content [] hlt]
        exact List.getElem_mem hlt

theorem getSequentialLine_eq {path : Chars} {st : St} {meta : FileMeta} {content : List Chars}
    (hf : getFileByPath st path = some meta) (hc : loadContent st meta.id = .ok content)
    (hne : content ≠ []) :
    getSequentialLine path st =
      .ok (some (content.getD (lookupCounter st.sequentialCounters path % content.length) []),
        { st with sequentialCounters := bump st.sequentialCounters path }) := by
  unfold getSequentialLine
  rw [hf]
  dsimp only
  rw [hc]
  dsimp only
  have hlen : ¬ content.length = 0 := by simpa [List.length_eq_zero] using hne
  rw [if_neg hlen]
  rfl

theorem getSequentialLine_ok_some {path : Chars} {st st' : St} {line : Chars}
    (h : getSequentialLine path st = .ok (some line, st')) :
    st' = { st with sequentialCounters := bump st.sequentialCounters path } ∧
    ∃ meta content, getFileByPath st path = some meta ∧
      loadContent st meta.id = .ok content ∧ content ≠ [] ∧
      line = content.getD (lookupCounter st.sequentialCounters path % content.length) [] ∧
      line ∈ content := by
  unfold getSequentialLine at h
  cases hf : getFileByPath st path with
  | none => rw [hf] at h; simp at h
  | some meta =>
    rw [hf] at h
    dsimp only at h
    cases hc : loadContent st meta.id with
    | err => rw [hc] at h; simp at h
    | ok content =>
      rw [hc] at h
      dsimp only at h
      by_cases hlen : content.length = 0
      · rw [if_pos hlen] at h; simp at h
      · rw [if_neg hlen] at h
        simp only [Except.ok.injEq, Prod.mk.injEq, Option.some.injEq] at h
        have hlt : lookupCounter st.sequentialCounters path % content.length < content.length :=
          Nat.mod_lt _ (Nat.pos_of_ne_zero hlen)
        refine ⟨h.2.symm, meta, content, rfl, hc, by simpa [List.length_eq_zero] using hlen,
          h.1.symm, ?_⟩
        rw [← h.1, List.getD_eq_getElem content [] hlt]
        exact List.getElem_mem hlt

theorem lookupContent_ne_err {l : List (Chars × LoadResult)}
    (h : ∀ pr ∈ l, pr.2 ≠ LoadResult.err) (id : Chars) : lookupContent l id ≠ .err := by
  induction l with
  | nil => simp [lookupContent]
  | cons pr rest ih =>
    by_cases hp : pr.1 = id
    · simpa [lookupContent, hp] using h pr (by simp)
    · simpa [lookupContent, hp] using ih (fun x hx => h x (List.mem_cons_of_mem _ hx))

theorem okStore_of_contents_eq {st st' : St} (h : st'.contents = st.contents)
    (hok : OkStore st) : OkStore st' := by
  intro pr hp
  exact hok pr (h ▸ hp)

theorem resolveOneF_frame {pfw : Chars → St → Except ExpErr (Chars × St)}
    (hcb : ∀ p st r st', pfw p st = .ok (r, st') → StoreFrame st st')
    {interior : Chars} {st : St} {r : Chars} {st' : St}
    (h : resolveOneF pfw interior st = .ok (r, st')) : StoreFrame st st' := by
  simp only [resolveOneF] at h
  by_cases h1 : hasChar (jsTrim interior) '|' = true
  · rw [if_pos h1] at h
    by_cases h2 : (splitOptions '|' (jsTrim interior)).isEmpty = true
    · rw [if_pos h2] at h
      simp only [Except.ok.injEq, Prod.mk.injEq] at h
      rw [← h.2]
      exact storeFrame_refl st
    · rw [if_neg h2] at h
      simp only [randIndex, Except.ok.injEq, Prod.mk.injEq] at h
      rw [← h.2]
      exact storeFrame_tape st _
  · rw [if_neg h1] at h
    by_cases hseq : ['*'].isPrefixOf (jsTrim interior) = true
    · simp only [hseq, if_true] at h
      by_cases hpath : (normalizeFragmentPath (jsTrim interior).tail).isEmpty = true
      · rw [if_pos hpath] at h
        simp only [Except.ok.injEq, Prod.mk.injEq] at h
        rw [← h.2]
        exact storeFrame_refl st
      · rw [if_neg hpath] at h
        cases hr : getSequentialLine (normalizeFragmentPath (jsTrim interior).tail) st with
        | error e => rw [hr] at h; simp at h
        | ok v =>
          rw [hr] at h
          obtain ⟨v1, st1⟩ := v
          cases v1 with
          | none =>
            dsimp only at h
            simp only [Except.ok.injEq, Prod.mk.injEq] at h
            rw [← h.2, getSequentialLine_ok_none hr]
            exact storeFrame_refl st
          | some line =>
            dsimp only at h
            obtain ⟨hst1, -⟩ := getSequentialLine_ok_some hr
            have hfr1 : StoreFrame st st1 := by
              rw [hst1]
              refine ⟨rfl, rfl, counterEvo_bump _ _ ⟨_, rfl⟩ ?_⟩
              intro hnil
              rw [hnil] at hpath
              exact hpath rfl
            exact storeFrame_trans hfr1 (hcb line st1 r st' h)
    · simp only [hseq, Bool.false_eq_true, if_false] at h
      by_cases hpath : (normalizeFragmentPath (jsTrim interior)).isEmpty = true
      · rw [if_pos hpath] at h
        simp only [Except.ok.injEq, Prod.mk.injEq] at h
        rw [← h.2]
        exact storeFrame_refl st
      · rw [if_neg hpath] at h
        cases hr : getRandomLine (normalizeFragmentPath (jsTrim interior)) st with
        | error e => rw [hr] at h; simp at h
        | ok v =>
          rw [hr] at h
          obtain ⟨v1, st1⟩ := v
          cases v1 with
          | none =>
            dsimp only at h
            simp only [Except.ok.injEq, Prod.mk.injEq] at h
            rw [← h.2, getRandomLine_ok_none hr]
            exact storeFrame_refl st
          | some line =>
            dsimp only at h
            obtain ⟨hst1, -⟩ := getRandomLine_ok_some hr
            have hfr1 : StoreFrame st st1 := by
              rw [hst1]
              exact storeFrame_tape st _
            exact storeFrame_trans hfr1 (hcb line st1 r st' h)

theorem resolveAllF_frame {pfw : Chars → St → Except ExpErr (Chars × St)}
    (hcb : ∀ p st r st', pfw p st = .ok (r, st') → StoreFrame st st') :
    ∀ {l : List Chars} {st : St} {reps : List (Chars × Chars)} {st' : St},
      resolveAllF pfw l st = .ok (reps, st') → StoreFrame st st' := by
  intro l
  induction l with
  | nil =>
    intro st reps st' h
    simp only [resolveAllF, Except.ok.injEq, Prod.mk.injEq] at h
    rw [← h.2]
    exact storeFrame_refl st
  | cons interior rest ih =>
    intro st reps st' h
    simp only [resolveAllF] at h
    cases h1 : resolveOneF pfw interior st with
    | error e => rw [h1] at h; simp at h
    | ok v =>
      rw [h1] at h
      obtain ⟨repl, st1⟩ := v
      dsimp only at h
      cases h2 : resolveAllF pfw rest st1 with
      | error e => rw [h2] at h; simp at h
      | ok w =>
        rw [h2] at h
        obtain ⟨reps2, st2⟩ := w
        dsimp only at h
        simp only [Except.ok.injEq, Prod.mk.injEq] at h
        rw [← h.2]
        exact storeFrame_trans (resolveOneF_frame hcb h1) (ih h2)

theorem processFileWildcards_frame :
    ∀ (fuel : Nat) {p : Chars} {st : St} {r : Chars} {st' : St},
      processFileWildcards fuel p st = .ok (r, st') → StoreFrame st st' := by
  intro fuel
  induction fuel with
  | zero => intro p st r st' h; simp [processFileWildcards] at h
  | succ n ih =>
    intro p st r st' h
    simp only [processFileWildcards] at h
    by_cases h1 : (scanInteriors p).isEmpty = true
    · rw [if_pos h1] at h
      simp only [Except.ok.injEq, Prod.mk.injEq] at h
      rw [← h.2]
      exact storeFrame_refl st
    · rw [if_neg h1] at h
      cases h2 : resolveAllF (processFileWildcards n) (scanInteriors p) st with
      | error e => rw [h2] at h; simp at h
      | ok w =>
        rw [h2] at h
        obtain ⟨reps, st2⟩ := w
        dsimp only at h
        simp only [Except.ok.injEq, Prod.mk.injEq] at h
        rw [← h.2]
        exact resolveAllF_frame (fun a b c d hh => ih hh) h2

theorem getD_mod_mem {l : List Chars} (h : ¬ l.length = 0) (r : Nat) :
    l.getD (r % l.length) [] ∈ l := by
  have hlt : r % l.length < l.length := Nat.mod_lt _ (Nat.pos_of_ne_zero h)
  rw [List.getD_eq_getElem l [] hlt]
  exact List.getElem_mem hlt

theorem parenReplace_store (run : Chars) (st : St) :
    (parenReplace run st).2.files = st.files ∧ (parenReplace run st).2.contents = st.contents ∧
    (parenReplace run st).2.sequentialCounters = st.sequentialCounters := by
  unfold parenReplace
  by_cases h : (splitOptions '/' run).length ≤ 1
  · rw [if_pos h]
    exact ⟨rfl, rfl, rfl⟩
  · rw [if_neg h]
    exact ⟨rfl, rfl, rfl⟩

theorem parenAux_store : ∀ (s : Chars) (acc : Option Chars) (st : St),
    (parenAux st acc s).2.files = st.files ∧ (parenAux st acc s).2.contents = st.contents ∧
    (parenAux st acc s).2.sequentialCounters = st.sequentialCounters := by
  intro s
  induction s with
  | nil =>
    intro acc st
    exact ⟨rfl, rfl, rfl⟩
  | cons c rest ih =>
    intro acc st
    simp only [parenAux]
    by_cases h1 : c = '('
    · rw [if_pos h1]
      cases acc with
      | none => exact ih (some []) st
      | some a => exact ih (some []) st
    · rw [if_neg h1]
      by_cases h2 : c = ')'
      · rw [if_pos h2]
        cases acc with
        | none => exact ih none st
        | some a =>
          dsimp only
          by_cases h3 : hasMidSlash a.reverse = true
          · rw [if_pos h3]
            obtain ⟨hf, hc, hs⟩ := ih none (parenReplace a.reverse st).2
            obtain ⟨hf2, hc2, hs2⟩ := parenReplace_store a.reverse st
            exact ⟨hf.trans hf2, hc.trans hc2, hs.trans hs2⟩
          · rw [if_neg h3]
            exact ih none st
      · rw [if_neg h2]
        cases acc with
        | none => exact ih none st
        | some a => exact ih (some (c :: a)) st

theorem parenAux_no_match : ∀ (s : Chars) (acc : Option Chars) (st : St),
    parenTestAux acc s = false → parenAux st acc s = (pendingParen acc ++ s, st) := by
  intro s
  induction s with
  | nil =>
    intro acc st _
    cases acc with
    | none => rfl
    | some a => simp [parenAux, pendingParen]
  | cons c rest ih =>
    intro acc st htest
    simp only [parenTestAux] at htest
    simp only [parenAux]
    by_cases h1 : c = '('
    · rw [if_pos h1] at htest ⊢
      cases acc with
      | none =>
        rw [ih (some []) st htest]
        simp [pendingParen, h1]
      | some a =>
        rw [ih (some []) st htest]
        simp [pendingParen, h1]
    · rw [if_neg h1] at htest ⊢
      by_cases h2 : c = ')'
      · rw [if_pos h2] at htest ⊢
        cases acc with
        | none =>
          rw [ih none st htest]
          simp [pendingParen, h2]
        | some a =>
          dsimp only at htest ⊢
          rw [Bool.or_eq_false_iff] at htest
          rw [if_neg (by simp [htest.1]), ih none st htest.2]
          simp [pendingParen, h2]
      · rw [if_neg h2] at htest ⊢
        cases acc with
        | none =>
          rw [ih none st htest]
          simp [pendingParen]
        | some a =>
          dsimp only at htest ⊢
          rw [ih (some (c :: a)) st htest]
          simp [pendingParen]

theorem parenAux_accum : ∀ (run : Chars), (∀ c ∈ run, ¬c = '(' ∧ ¬c = ')') →
    ∀ (a : Chars) (s : Chars) (st : St),
      parenAux st (some a) (run ++ s) = parenAux st (some (run.reverse ++ a)) s := by
  intro run
  induction run with
  | nil => intro _ a s st; simp
  | cons c cs ih =>
    intro hrun a s st
    obtain ⟨hc1, hc2⟩ := hrun c (by simp)
    rw [List.cons_append]
    simp only [parenAux]
    rw [if_neg hc1, if_neg hc2]
    rw [ih (fun d hd => hrun d (by simp [hd])) (c :: a) s st]
    rw [List.reverse_cons, List.append_assoc]
    rfl

theorem processTag_noCond {tag : Chars} {st : St} (h : ¬ simpleCond (jsTrim tag) = true) :
    processTag tag st = (jsTrim tag, st) := by
  simp only [processTag]
  rw [if_neg h]

theorem processTag_store (tag : Chars) (st : St) :
    (processTag tag st).2.files = st.files ∧ (processTag tag st).2.contents = st.contents ∧
    (processTag tag st).2.sequentialCounters = st.sequentialCounters := by
  simp only [processTag]
  by_cases h : simpleCond (jsTrim tag) = true
  · rw [if_pos h]
    by_cases h2 : (splitOptions '/' (jsTrim tag)).length > 1
    · rw [if_pos h2]
      exact ⟨rfl, rfl, rfl⟩
    · rw [if_neg h2]
      exact ⟨rfl, rfl, rfl⟩
  · rw [if_neg h]
    exact ⟨rfl, rfl, rfl⟩

theorem processTags_store : ∀ (tags : List Chars) (st : St),
    (processTags tags st).2.files = st.files ∧ (processTags tags st).2.contents = st.contents ∧
    (processTags tags st).2.sequentialCounters = st.sequentialCounters := by
  intro tags
  induction tags with
  | nil => intro st; exact ⟨rfl, rfl, rfl⟩
  | cons t ts ih =>
    intro st
    simp only [processTags]
    obtain ⟨hf, hc, hs⟩ := ih (processTag t st).2
    obtain ⟨hf2, hc2, hs2⟩ := processTag_store t st
    exact ⟨hf.trans hf2, hc.trans hc2, hs.trans hs2⟩

theorem processTags_map_trim : ∀ (tags : List Chars) (st : St),
    (∀ tag ∈ tags, ¬ simpleCond (jsTrim tag) = true) →
    processTags tags st = (tags.map jsTrim, st) := by
  intro tags
  induction tags with
  | nil => intro st _; rfl
  | cons t ts ih =>
    intro st h
    simp only [processTags]
    rw [processTag_noCond (h t (by simp))]
    rw [ih st (fun tag htag => h tag (List.mem_cons_of_mem _ htag))]
    rfl

theorem getRandomLine_no_reject (path : Chars) {st : St} (h : OkStore st) :
    ∃ v st', getRandomLine path st = .ok (v, st') := by
  unfold getRandomLine
  cases hf : getFileByPath st path with
  | none => exact ⟨none, st, rfl⟩
  | some meta =>
    dsimp only
    cases hc : loadContent st meta.id with
    | err => exact absurd hc (lookupContent_ne_err h meta.id)
    | ok content =>
      dsimp only
      by_cases hlen : content.length = 0
      · exact ⟨none, st, by rw [if_pos hlen]⟩
      · exact ⟨_, _, by rw [if_neg hlen]⟩

theorem getSequentialLine_no_reject (path : Chars) {st : St} (h : OkStore st) :
    ∃ v st', getSequentialLine path st = .ok (v, st') := by
  unfold getSequentialLine
  cases hf : getFileByPath st path with
  | none => exact ⟨none, st, rfl⟩
  | some meta =>
    dsimp only
    cases hc : loadContent st meta.id with
    | err => exact absurd hc (lookupContent_ne_err h meta.id)
    | ok content =>
      dsimp only
      by_cases hlen : content.length = 0
      · exact ⟨none, st, by rw [if_pos hlen]⟩
      · exact ⟨_, _, by rw [if_neg hlen]⟩

theorem resolveOneF_no_storeFail {pfw : Chars → St → Except ExpErr (Chars × St)}
    (hcb : ∀ p st, OkStore st → pfw p st ≠ .error .storeFail)
    (interior : Chars) {st : St} (hok : OkStore st) :
    resolveOneF pfw interior st ≠ .error .storeFail := by
  simp only [resolveOneF]
  by_cases h1 : hasChar (jsTrim interior) '|' = true
  · rw [if_pos h1]
    by_cases h2 : (splitOptions '|' (jsTrim interior)).isEmpty = true
    · rw [if_pos h2]; simp
    · rw [if_neg h2]; simp [randIndex]
  · rw [if_neg h1]
    by_cases hseq : ['*'].isPrefixOf (jsTrim interior) = true
    · simp only [hseq, if_true]
      by_cases hpath : (normalizeFragmentPath (jsTrim interior).tail).isEmpty = true
      · rw [if_pos hpath]; simp
      · rw [if_neg hpath]
        obtain ⟨v, st1, hr⟩ :=
          getSequentialLine_no_reject (normalizeFragmentPath (jsTrim interior).tail) hok
        rw [hr]
        cases v with
        | none => simp
        | some line =>
          dsimp only
          obtain ⟨hst1, -⟩ := getSequentialLine_ok_some hr
          exact hcb line st1 (okStore_of_contents_eq (by rw [hst1]) hok)
    · simp only [hseq, Bool.false_eq_true, if_false]
      by_cases hpath : (normalizeFragmentPath (jsTrim interior)).isEmpty = true
      · rw [if_pos hpath]; simp
      · rw [if_neg hpath]
        obtain ⟨v, st1, hr⟩ :=
          getRandomLine_no_reject (normalizeFragmentPath (jsTrim interior)) hok
        rw [hr]
        cases v with
        | none => simp
        | some line =>
          dsimp only
          obtain ⟨hst1, -⟩ := getRandomLine_ok_some hr
          exact hcb line st1 (okStore_of_contents_eq (by rw [hst1]) hok)

theorem resolveAllF_no_storeFail {pfw : Chars → St → Except ExpErr (Chars × St)}
    (hcb : ∀ p st, OkStore st → pfw p st ≠ .error .storeFail)
    (hcbf : ∀ p st r st', pfw p st = .ok (r, st') → StoreFrame st st') :
    ∀ (l : List Chars) {st : St}, OkStore st →
      resolveAllF pfw l st ≠ .error .storeFail := by
  intro l
  induction l with
  | nil => intro st hok; simp [resolveAllF]
  | cons i rest ih =>
    intro st hok
    simp only [resolveAllF]
    cases h1 : resolveOneF pfw i st with
    | error e =>
      have hne := resolveOneF_no_storeFail hcb i hok
      rw [h1] at hne
      dsimp only
      exact fun hc => hne (by rw [Except.error.inj hc])
    | ok v =>
      obtain ⟨repl, st1⟩ := v
      dsimp only
      cases h2 : resolveAllF pfw rest st1 with
      | error e =>
        have hok1 : OkStore st1 :=
          okStore_of_contents_eq (resolveOneF_frame hcbf h1).2.1 hok
        have hne := ih hok1
        rw [h2] at hne
        dsimp only
        exact fun hc => hne (by rw [Except.error.inj hc])
      | ok w =>
        obtain ⟨reps, st2⟩ := w
        dsimp only
        simp

theorem processFileWildcards_no_storeFail :
    ∀ (fuel : Nat) {p : Chars} {st : St}, OkStore st →
      processFileWildcards fuel p st ≠ .error .storeFail := by
  intro fuel
  induction fuel with
  | zero => intro p st _; simp [processFileWildcards]
  | succ n ih =>
    intro p st hok
    simp only [processFileWildcards]
    by_cases h1 : (scanInteriors p).isEmpty = true
    · rw [if_pos h1]; simp
    · rw [if_neg h1]
      cases h2 : resolveAllF (processFileWildcards n) (scanInteriors p) st with
      | error e =>
        have hne := resolveAllF_no_storeFail (fun a b hb => @ih a b hb)
          (fun a b c d hd => @processFileWildcards_frame n a b c d hd) (scanInteriors p) hok
        rw [h2] at hne
        dsimp only
        exact fun hc => hne (by rw [Except.error.inj hc])
      | ok w =>
        obtain ⟨reps, st2⟩ := w
        dsimp only
        simp

/-! ## Behaviour on a store that resolves nothing -/

theorem getFileByPath_nil {st : St} (h : st.files = []) (path : Chars) :
    getFileByPath st path = none := by
  simp [getFileByPath, h]

theorem resolveOneF_noLookup {pfw : Chars → St → Except ExpErr (Chars × St)}
    {interior : Chars} {st : St} (hfiles : st.files = [])
    (h1 : ¬ hasChar (jsTrim interior) '|' = true) :
    resolveOneF pfw interior st = .ok (matchText interior, st) := by
  simp only [resolveOneF]
  rw [if_neg h1]
  by_cases hseq : ['*'].isPrefixOf (jsTrim interior) = true
  · simp only [hseq, if_true]
    by_cases hpath : (normalizeFragmentPath (jsTrim interior).tail).isEmpty = true
    · rw [if_pos hpath]
    · rw [if_neg hpath]
      have hr : getSequentialLine (normalizeFragmentPath (jsTrim interior).tail) st =
          .ok (none, st) := by
        unfold getSequentialLine
        rw [getFileByPath_nil hfiles]
      rw [hr]
  · simp only [hseq, Bool.false_eq_true, if_false]
    by_cases hpath : (normalizeFragmentPath (jsTrim interior)).isEmpty = true
    · rw [if_pos hpath]
    · rw [if_neg hpath]
      have hr : getRandomLine (normalizeFragmentPath (jsTrim interior)) st =
          .ok (none, st) := by
        unfold getRandomLine
        rw [getFileByPath_nil hfiles]
      rw [hr]

theorem resolveOneF_total_noFiles {pfw : Chars → St → Except ExpErr (Chars × St)}
    (interior : Chars) {st : St} (hfiles : st.files = []) :
    ∃ r st', resolveOneF pfw interior st = .ok (r, st') := by
  by_cases h1 : hasChar (jsTrim interior) '|' = true
  · simp only [resolveOneF]
    rw [if_pos h1]
    by_cases h2 : (splitOptions '|' (jsTrim interior)).isEmpty = true
    · rw [if_pos h2]; exact ⟨_, _, rfl⟩
    · rw [if_neg h2]; exact ⟨_, _, rfl⟩
  · exact ⟨_, _, resolveOneF_noLookup hfiles h1⟩

theorem resolveAllF_total_noFiles {pfw : Chars → St → Except ExpErr (Chars × St)}
    (hcbf : ∀ p st r st', pfw p st = .ok (r, st') → StoreFrame st st') :
    ∀ (l : List Chars) {st : St}, st.files = [] →
      ∃ reps st', resolveAllF pfw l st = .ok (reps, st') := by
  intro l
  induction l with
  | nil => intro st _; exact ⟨[], st, rfl⟩
  | cons i rest ih =>
    intro st hfiles
    obtain ⟨r, st1, h1⟩ := @resolveOneF_total_noFiles pfw i st hfiles
    have hfiles1 : st1.files = [] := by
      rw [(resolveOneF_frame hcbf h1).1, hfiles]
    obtain ⟨reps, st2, h2⟩ := ih hfiles1
    refine ⟨(matchText i, r) :: reps, st2, ?_⟩
    simp only [resolveAllF]
    rw [h1]
    dsimp only
    rw [h2]

theorem resolveAllF_noLookup {pfw : Chars → St → Except ExpErr (Chars × St)} {st : St}
    (hfiles : st.files = []) :
    ∀ {l : List Chars}, (∀ i ∈ l, ¬ hasChar (jsTrim i) '|' = true) →
      resolveAllF pfw l st = .ok (l.map (fun i => (matchText i, matchText i)), st) := by
  intro l
  induction l with
  | nil => intro _; rfl
  | cons i rest ih =>
    intro h
    simp only [resolveAllF]
    rw [resolveOneF_noLookup hfiles (h i (by simp))]
    dsimp only
    rw [ih (fun j hj => h j (List.mem_cons_of_mem _ hj))]
    rfl

theorem foldl_replaceLast_id :
    ∀ (pairs : List (Chars × Chars)), (∀ pr ∈ pairs, pr.2 = pr.1) →
      ∀ s, pairs.foldl (fun acc mr => replaceLast mr.1 mr.2 acc) s = s := by
  intro pairs
  induction pairs with
  | nil => intro _ s; rfl
  | cons pr rest ih =>
    intro h s
    rw [List.foldl_cons, h pr (by simp), replaceLast_self]
    exact ih (fun q hq => h q (List.mem_cons_of_mem _ hq)) s

theorem processFileWildcards_literal {fuel : Nat} {p : Chars} {st : St}
    (hfiles : st.files = [])
    (hni : ∀ i ∈ scanInteriors p, ¬ hasChar (jsTrim i) '|' = true) :
    processFileWildcards (fuel + 1) p st = .ok (p, st) := by
  simp only [processFileWildcards]
  by_cases h1 : (scanInteriors p).isEmpty = true
  · rw [if_pos h1]
  · rw [if_neg h1, resolveAllF_noLookup hfiles hni]
    dsimp only
    rw [foldl_replaceLast_id _ ?_ p]
    intro pr hpr
    rw [List.mem_reverse, List.mem_map] at hpr
    obtain ⟨i, -, hi⟩ := hpr
    rw [← hi]

theorem processFileWildcards_total_noFiles (fuel : Nat) {p : Chars} {st : St}
    (hfiles : st.files = []) :
    ∃ r st', processFileWildcards (fuel + 1) p st = .ok (r, st') := by
  simp only [processFileWildcards]
  by_cases h1 : (scanInteriors p).isEmpty = true
  · rw [if_pos h1]; exact ⟨_, _, rfl⟩
  · rw [if_neg h1]
    obtain ⟨reps, st', h2⟩ := resolveAllF_total_noFiles
      (fun a b c d hd => @processFileWildcards_frame fuel a b c d hd) (scanInteriors p) hfiles
    rw [h2]
    exact ⟨_, _, rfl⟩

/-! ## Expansions that resolve no sequential reference -/

theorem lookupContent_cases : ∀ {l : List (Chars × LoadResult)} {id : Chars},
    ∀ {c : List Chars}, lookupContent l id = .ok c →
      c = [] ∨ (id, LoadResult.ok c) ∈ l := by
  intro l id
  induction l with
  | nil =>
    intro c h
    simp only [lookupContent, LoadResult.ok.injEq] at h
    exact Or.inl h.symm
  | cons pr rest ih =>
    intro c h
    simp only [lookupContent] at h
    by_cases hp : pr.1 = id
    · rw [if_pos hp] at h
      have hpr : pr = (id, LoadResult.ok c) := by
        cases pr with
        | mk a b =>
          simp only at hp h
          rw [hp, h]
      exact Or.inr (hpr ▸ List.mem_cons_self pr rest)
    · rw [if_neg hp] at h
      rcases ih h with hc | hm
      · exact Or.inl hc
      · exact Or.inr (List.mem_cons_of_mem _ hm)

theorem storeSeqFree_of_contents_eq {st st' : St} (h : st'.contents = st.contents)
    (hs : StoreSeqFree st) : StoreSeqFree st' := fun pr hp => hs pr (h ▸ hp)

theorem resolveOneF_seqFree {pfw : Chars → St → Except ExpErr (Chars × St)}
    (hcbf : ∀ p st r st', pfw p st = .ok (r, st') → StoreFrame st st')
    (hcb : ∀ p st r st', PromptSeqFree p → StoreSeqFree st → pfw p st = .ok (r, st') →
      st'.sequentialCounters = st.sequentialCounters)
    {interior : Chars} {st : St} {r : Chars} {st' : St}
    (hin : ¬ ['*'].isPrefixOf (jsTrim interior) = true)
    (hsf : StoreSeqFree st)
    (h : resolveOneF pfw interior st = .ok (r, st')) :
    st'.sequentialCounters = st.sequentialCounters := by
  simp only [resolveOneF] at h
  by_cases h1 : hasChar (jsTrim interior) '|' = true
  · rw [if_pos h1] at h
    by_cases h2 : (splitOptions '|' (jsTrim interior)).isEmpty = true
    · rw [if_pos h2] at h
      simp only [Except.ok.injEq, Prod.mk.injEq] at h
      rw [← h.2]
    · rw [if_neg h2] at h
      simp only [randIndex, Except.ok.injEq, Prod.mk.injEq] at h
      rw [← h.2]
  · rw [if_neg h1] at h
    simp only [hin, Bool.false_eq_true, if_false] at h
    by_cases hpath : (normalizeFragmentPath (jsTrim interior)).isEmpty = true
    · rw [if_pos hpath] at h
      simp only [Except.ok.injEq, Prod.mk.injEq] at h
      rw [← h.2]
    · rw [if_neg hpath] at h
      cases hr : getRandomLine (normalizeFragmentPath (jsTrim interior)) st with
      | error e => rw [hr] at h; simp at h
      | ok v =>
        rw [hr] at h
        obtain ⟨v1, st1⟩ := v
        cases v1 with
        | none =>
          dsimp only at h
          simp only [Except.ok.injEq, Prod.mk.injEq] at h
          rw [← h.2, getRandomLine_ok_none hr]
        | some line =>
          dsimp only at h
          obtain ⟨hst1, meta, content, hf, hc, hmem⟩ := getRandomLine_ok_some hr
          have hline : PromptSeqFree line := by
            rcases lookupContent_cases hc with hnil | hmm
            · rw [hnil] at hmem
              exact absurd hmem (List.not_mem_nil line)
            · exact hsf (meta.id, LoadResult.ok content) hmm line hmem
          have hsf1 : StoreSeqFree st1 := storeSeqFree_of_contents_eq (by rw [hst1]) hsf
          rw [hcb line st1 r st' hline hsf1 h, hst1]

theorem resolveAllF_seqFree {pfw : Chars → St → Except ExpErr (Chars × St)}
    (hcbf : ∀ p st r st', pfw p st = .ok (r, st') → StoreFrame st st')
    (hcb : ∀ p st r st', PromptSeqFree p → StoreSeqFree st → pfw p st = .ok (r, st') →
      st'.sequentialCounters = st.sequentialCounters) :
    ∀ (l : List Chars) {st : St} {reps : List (Chars × Chars)} {st' : St},
      (∀ i ∈ l, ¬ ['*'].isPrefixOf (jsTrim i) = true) → StoreSeqFree st →
      resolveAllF pfw l st = .ok (reps, st') →
      st'.sequentialCounters = st.sequentialCounters := by
  intro l
  induction l with
  | nil =>
    intro st reps st' _ _ h
    simp only [resolveAllF, Except.ok.injEq, Prod.mk.injEq] at h
    rw [← h.2]
  | cons i rest ih =>
    intro st reps st' hins hsf h
    simp only [resolveAllF] at h
    cases h1 : resolveOneF pfw i st with
    | error e => rw [h1] at h; simp at h
    | ok v =>
      rw [h1] at h
      obtain ⟨repl, st1⟩ := v
      dsimp only at h
      cases h2 : resolveAllF pfw rest st1 with
      | error e => rw [h2] at h; simp at h
      | ok w =>
        rw [h2] at h
        obtain ⟨reps2, st2⟩ := w
        dsimp only at h
        simp only [Except.ok.injEq, Prod.mk.injEq] at h
        have hs1 : st1.sequentialCounters = st.sequentialCounters :=
          resolveOneF_seqFree hcbf hcb (hins i (by simp)) hsf h1
        have hsf1 : StoreSeqFree st1 :=
          storeSeqFree_of_contents_eq (resolveOneF_frame hcbf h1).2.1 hsf
        have hs2 := ih (fun j hj => hins j (List.mem_cons_of_mem _ hj)) hsf1 h2
        rw [← h.2, hs2, hs1]

theorem processFileWildcards_seqFree :
    ∀ (fuel : Nat) {p : Chars} {st : St} {r : Chars} {st' : St},
      PromptSeqFree p → StoreSeqFree st →
      processFileWildcards fuel p st = .ok (r, st') →
      st'.sequentialCounters = st.sequentialCounters := by
  intro fuel
  induction fuel with
  | zero => intro p st r st' _ _ h; simp [processFileWildcards] at h
  | succ n ih =>
    intro p st r st' hp hsf h
    simp only [processFileWildcards] at h
    by_cases h1 : (scanInteriors p).isEmpty = true
    · rw [if_pos h1] at h
      simp only [Except.ok.injEq, Prod.mk.injEq] at h
      rw [← h.2]
    · rw [if_neg h1] at h
      cases h2 : resolveAllF (processFileWildcards n) (scanInteriors p) st with
      | error e => rw [h2] at h; simp at h
      | ok w =>
        rw [h2] at h
        obtain ⟨reps, st2⟩ := w
        dsimp only at h
        simp only [Except.ok.injEq, Prod.mk.injEq] at h
        have := resolveAllF_seqFree
          (fun a b c d hd => @processFileWildcards_frame n a b c d hd)
          (fun a b c d hpa hsa hd => @ih a b c d hpa hsa hd)
          (scanInteriors p) hp hsf h2
        rw [← h.2, this]

theorem processFileWildcards_noMatches {fuel : Nat} {p : Chars} {st : St}
    (h : (scanInteriors p).isEmpty = true) :
    processFileWildcards (fuel + 1) p st = .ok (p, st) := by
  simp only [processFileWildcards]
  rw [if_pos h]

/-! ## Pipeline composition helpers -/

theorem hasChar_iff {s : Chars} {c : Char} : hasChar s c = true ↔ c ∈ s := by
  simp only [hasChar, List.any_eq_true, decide_eq_true_eq]
  constructor
  · rintro ⟨x, hx, rfl⟩
    exact hx
  · intro h
    exact ⟨c, h, rfl⟩

theorem hasWildcards_false_parts {p : Chars} (hne : ¬ p.isEmpty = true)
    (h : hasWildcards p = false) :
    (scanInteriors p).isEmpty = true ∧ parenHasMatch p = false ∧
      ∀ tag ∈ splitOnChar ',' p, ¬ simpleCond (jsTrim tag) = true := by
  simp only [hasWildcards] at h
  rw [if_neg hne] at h
  by_cases h1 : (scanInteriors p).isEmpty = true
  · simp only [h1, Bool.not_true, Bool.false_eq_true, if_false] at h
    by_cases h2 : parenHasMatch p = true
    · rw [if_pos h2] at h
      cases h
    · simp only [h2, Bool.false_eq_true, if_false] at h
      rw [List.any_eq_false] at h
      exact ⟨h1, by simpa using h2, fun tag htag => h tag htag⟩
  · exfalso
    have hb : (scanInteriors p).isEmpty = false := by simpa using h1
    rw [hb] at h
    cases h

theorem processWildcards_succ_of_pfw {fuel : Nat} {p r : Chars} {st st1 : St}
    (hne : ¬ p.isEmpty = true)
    (h1 : processFileWildcards fuel p st = .ok (r, st1))
    (hp : parenHasMatch r = false)
    (ht : ∀ tag ∈ splitOnChar ',' r, ¬ simpleCond (jsTrim tag) = true) :
    processWildcards fuel p st = .ok (commaNormalize r, st1) := by
  simp only [processWildcards]
  rw [if_neg hne, h1]
  dsimp only
  have hpp : processParenthesisWildcards r st1 = (r, st1) := by
    have := parenAux_no_match r none st1 hp
    simpa [processParenthesisWildcards, pendingParen] using this
  rw [hpp]
  dsimp only
  have hps : processSimpleWildcards r st1 = (commaNormalize r, st1) := by
    simp only [processSimpleWildcards]
    rw [processTags_map_trim _ _ ht]
    rfl
  rw [hps]

/-- Stage 1 on a prompt whose scan finds exactly one match: the single
resolution is substituted for the last occurrence of the match text. -/
theorem processFileWildcards_single {fuel : Nat} {p interior r : Chars} {st st1 : St}
    (hscan : scanInteriors p = [interior])
    (hone : resolveOneF (processFileWildcards fuel) interior st = .ok (r, st1)) :
    processFileWildcards (fuel + 1) p st =
      .ok (replaceLast (matchText interior) r p, st1) := by
  rw [processFileWildcards, hscan]
  rw [if_neg (by simp)]
  rw [resolveAllF, hone]
  dsimp only
  rw [resolveAllF]
  dsimp only
  simp only [List.reverse_cons, List.reverse_nil, List.nil_append, List.foldl_cons,
    List.foldl_nil]

theorem resolveOneF_lookup_none {pfw : Chars → St → Except ExpErr (Chars × St)}
    {interior : Chars} {st st' : St}
    (h1 : ¬ hasChar (jsTrim interior) '|' = true)
    (hlook : (if ['*'].isPrefixOf (jsTrim interior) = true then
          getSequentialLine (normalizeFragmentPath (jsTrim interior).tail) st
        else getRandomLine (normalizeFragmentPath (jsTrim interior)) st) =
      .ok (none, st')) :
    resolveOneF pfw interior st = .ok (matchText interior, st') := by
  simp only [resolveOneF]
  rw [if_neg h1]
  by_cases hseq : ['*'].isPrefixOf (jsTrim interior) = true
  · rw [if_pos hseq] at hlook
    simp only [hseq, if_true]
    by_cases hpath : (normalizeFragmentPath (jsTrim interior).tail).isEmpty = true
    · rw [if_pos hpath]
      rw [getSequentialLine_ok_none hlook]
    · rw [if_neg hpath, hlook]
  · rw [if_neg hseq] at hlook
    simp only [hseq, Bool.false_eq_true, if_false]
    by_cases hpath : (normalizeFragmentPath (jsTrim interior)).isEmpty = true
    · rw [if_pos hpath]
      rw [getRandomLine_ok_none hlook]
    · rw [if_neg hpath, hlook]

/-! ## Claims -/

/-- C1 (counterexample): with an empty fragment store, the folder-qualified
unresolvable reference `<folder/name>` is NOT preserved by `expand`: stage 3
slash-splits the literal text and returns `<folder`, not `<folder/name>`. -/
theorem c1_counterexample :
    processWildcards 1 "<folder/name>".data (emptyStT []) =
      .ok ("<folder".data, emptyStT []) ∧
    getFileByPath (emptyStT []) "folder/name".data = none ∧
    ("<folder".data : Chars) ≠ "<folder/name>".data :=
  ⟨by decide, by decide, by decide⟩

/-- C1 (amended): per reference, whenever the store lookup actually
performed for a non-inline `<...>` match returns null - `getSequentialLine`
at the normalized path for a `<*...>` reference, `getRandomLine` otherwise,
over an ARBITRARY store state, in particular one holding files but none at
the referenced path - stage 1 uses the full original match text, angle
brackets included, as the replacement (first conjunct); since substituting
a match by itself is the identity, `expand "<doesnotexist>"` returns
`"<doesnotexist>"` unchanged for every store with no file at that path
(second conjunct).  The preservation in the final output is for slash-free
references: a literal containing `/` can still be rewritten by stage 3
(see the counterexample). -/
theorem c1_unresolved_reference_literal :
    (∀ (pfw : Chars → St → Except ExpErr (Chars × St)) (interior : Chars) (st st' : St),
      ¬ hasChar (jsTrim interior) '|' = true →
      (if ['*'].isPrefixOf (jsTrim interior) = true then
          getSequentialLine (normalizeFragmentPath (jsTrim interior).tail) st
        else getRandomLine (normalizeFragmentPath (jsTrim interior)) st) =
        .ok (none, st') →
      resolveOneF pfw interior st = .ok (matchText interior, st')) ∧
    (∀ st : St, getFileByPath st "doesnotexist".data = none →
      processWildcards 1 "<doesnotexist>".data st = .ok ("<doesnotexist>".data, st)) := by
  constructor
  · intro pfw interior st st' h1 hlook
    exact resolveOneF_lookup_none h1 hlook
  · intro st hnone
    have hrl : getRandomLine "doesnotexist".data st = .ok (none, st) := by
      unfold getRandomLine
      rw [hnone]
    have hn : normalizeFragmentPath (jsTrim "doesnotexist".data) = "doesnotexist".data := by
      decide
    have hone : resolveOneF (processFileWildcards 0) "doesnotexist".data st =
        .ok (matchText "doesnotexist".data, st) := by
      refine resolveOneF_lookup_none (by decide) ?_
      rw [if_neg (by decide), hn]
      exact hrl
    have hsc : scanInteriors "<doesnotexist>".data = ["doesnotexist".data] := by decide
    have h1 := processFileWildcards_single hsc hone
    rw [replaceLast_self] at h1
    have h2 := processWildcards_succ_of_pfw (by decide) h1 (by decide) (by decide)
    have hcn : commaNormalize "<doesnotexist>".data = "<doesnotexist>".data := by decide
    rw [hcn] at h2
    exact h2

theorem c1_witness :
    (hairStC 0).files ≠ [] ∧
    getFileByPath (hairStC 0) "doesnotexist".data = none ∧
    resolveOneF (processFileWildcards 0) "doesnotexist".data (hairStC 0) =
      .ok (matchText "doesnotexist".data, hairStC 0) ∧
    processWildcards 1 "<doesnotexist>".data (hairStC 0) =
      .ok ("<doesnotexist>".data, hairStC 0) :=
  ⟨by decide, by decide,
    c1_unresolved_reference_literal.1 (processFileWildcards 0) "doesnotexist".data
      (hairStC 0) (hairStC 0) (by decide) (by decide),
    c1_unresolved_reference_literal.2 (hairStC 0) (by decide)⟩

/-- C2 (counterexample): `hasWildcards " a" = false`, yet `expand " a"`
returns `"a"`, not `" a"`: stage 3 trims every comma segment and rejoins
with a comma and a space even when nothing is resolved. -/
theorem c2_counterexample :
    hasWildcards " a".data = false ∧
    processWildcards 1 " a".data (emptyStT []) = .ok ("a".data, emptyStT []) ∧
    ("a".data : Chars) ≠ " a".data :=
  ⟨by decide, by decide, by decide⟩

/-- C2 (amended): for every string with `hasWildcards s = false`, `expand`
returns the comma normalization of `s` (segments trimmed, rejoined with a
comma and a space) and leaves the state untouched; hence `expand s = s`
exactly when `s` is already in that normal form. -/
theorem c2_no_choice_points_normalizes (p : Chars) (fuel : Nat) (st : St)
    (h : hasWildcards p = false) :
    processWildcards (fuel + 1) p st = .ok (commaNormalize p, st) := by
  by_cases hne : p.isEmpty = true
  · have hp : p = [] := by simpa using hne
    subst hp
    rfl
  · obtain ⟨hscan, hparen, htags⟩ := hasWildcards_false_parts hne h
    exact processWildcards_succ_of_pfw hne (processFileWildcards_noMatches hscan) hparen htags

theorem c2_witness :
    hasWildcards "tag1, tag2".data = false ∧
    processWildcards 1 "tag1, tag2".data (emptyStT []) =
      .ok (commaNormalize "tag1, tag2".data, emptyStT []) ∧
    commaNormalize "tag1, tag2".data = "tag1, tag2".data :=
  ⟨by decide, c2_no_choice_points_normalizes "tag1, tag2".data 0 (emptyStT []) (by decide),
    by decide⟩

/-- C3: for a stored file with nonzero line count, `getSequentialLine`
returns `content[counter(path) % lineCount]` and then stores
`counter(path) + 1` (never clamped), leaving every other counter alone; the
index actually read is always below the line count whatever the stored
counter holds; and with fragment `hair` holding lines `a`, `b`, `c` and a
fresh counter, four consecutive `expand "<*hair>"` calls yield `a`, `b`,
`c`, `a`. -/
theorem c3_sequential_read :
    (∀ (path : Chars) (st : St) (meta : FileMeta) (content : List Chars),
      getFileByPath st path = some meta → loadContent st meta.id = .ok content →
      content ≠ [] →
      getSequentialLine path st =
        .ok (some (content.getD (lookupCounter st.sequentialCounters path % content.length) []),
          { st with sequentialCounters := bump st.sequentialCounters path }) ∧
      lookupCounter st.sequentialCounters path % content.length < content.length ∧
      lookupCounter (bump st.sequentialCounters path) path =
        lookupCounter st.sequentialCounters path + 1 ∧
      (∀ q, q ≠ path → lookupCounter (bump st.sequentialCounters path) q =
        lookupCounter st.sequentialCounters q)) ∧
    (processWildcards 2 "<*hair>".data (hairStC 0) = .ok ("a".data, hairStC 1) ∧
     processWildcards 2 "<*hair>".data (hairStC 1) = .ok ("b".data, hairStC 2) ∧
     processWildcards 2 "<*hair>".data (hairStC 2) = .ok ("c".data, hairStC 3) ∧
     processWildcards 2 "<*hair>".data (hairStC 3) = .ok ("a".data, hairStC 4)) := by
  constructor
  · intro path st meta content hf hc hne
    refine ⟨getSequentialLine_eq hf hc hne,
      Nat.mod_lt _ (List.length_pos.mpr hne),
      lookupCounter_bump_self _ _,
      fun q hq => lookupCounter_bump_ne _ _ _ hq⟩
  · exact ⟨by decide, by decide, by decide, by decide⟩

theorem c3_witness :
    getSequentialLine "hair".data (hairStC 0) =
      .ok (some (["a".data, "b".data, "c".data].getD
          (lookupCounter (hairStC 0).sequentialCounters "hair".data %
            ["a".data, "b".data, "c".data].length) []),
        { hairStC 0 with
            sequentialCounters := bump (hairStC 0).sequentialCounters "hair".data }) ∧
    lookupCounter (hairStC 0).sequentialCounters "hair".data %
        ["a".data, "b".data, "c".data].length < ["a".data, "b".data, "c".data].length := by
  have h := c3_sequential_read.1 "hair".data (hairStC 0) ⟨"1".data, "hair".data, [], 3⟩
    ["a".data, "b".data, "c".data] (by decide) (by decide) (by decide)
  exact ⟨h.1, h.2.1⟩

/-- C4: `expand` never fails because of malformed or unresolvable syntax:
with a store none of whose content reads reject, no fuel and no prompt can
produce a store-failure result, and with a store that resolves nothing
every prompt expands successfully; conversely a rejecting content read
surfaces as a failed `expand` call (no catch-and-degrade wrapper), as at
the concrete witness store. -/
theorem c4_raises_iff_store_rejects :
    (∀ (fuel : Nat) (p : Chars) (st : St), OkStore st →
      processWildcards fuel p st ≠ .error .storeFail) ∧
    (∀ (fuel : Nat) (p : Chars) (st : St), st.files = [] →
      ∃ r st', processWildcards (fuel + 1) p st = .ok (r, st')) ∧
    processWildcards 1 "<f>".data failSt = .error .storeFail := by
  refine ⟨?_, ?_, by decide⟩
  · intro fuel p st hok
    simp only [processWildcards]
    by_cases hne : p.isEmpty = true
    · rw [if_pos hne]
      simp
    · rw [if_neg hne]
      cases hpfw : processFileWildcards fuel p st with
      | error e =>
        have hns := @processFileWildcards_no_storeFail fuel p st hok
        rw [hpfw] at hns
        dsimp only
        exact fun hc => hns (by rw [Except.error.inj hc])
      | ok v =>
        obtain ⟨r1, st1⟩ := v
        dsimp only
        simp
  · intro fuel p st hfiles
    simp only [processWildcards]
    by_cases hne : p.isEmpty = true
    · rw [if_pos hne]
      exact ⟨p, st, rfl⟩
    · rw [if_neg hne]
      obtain ⟨r, st', hpfw⟩ := @processFileWildcards_total_noFiles fuel p st hfiles
      rw [hpfw]
      dsimp only
      exact ⟨_, _, rfl⟩

theorem c4_witness :
    OkStore (hairStC 0) ∧
    processWildcards 3 "<junk <a| (b/".data (hairStC 0) ≠ .error .storeFail ∧
    (emptyStT []).files = [] ∧
    (∃ r st', processWildcards 1 "<a| (b/ c//d".data (emptyStT []) = .ok (r, st')) :=
  ⟨by unfold OkStore; decide, c4_raises_iff_store_rejects.1 3 _ _ (by unfold OkStore; decide),
    rfl, c4_raises_iff_store_rejects.2.1 0 _ _ rfl⟩

/-- C5: a `<...>` match whose trimmed interior contains `|` is resolved as
an inline option list without consulting the store: with a nonempty option
list the replacement is `options[draw % length]` - an arbitrary in-range
index, every option reachable - and only the random tape advances; with an
empty option list the match text is kept.  In particular
`expand "<red|blue|green>"` always returns one of `red`, `blue`, `green`
(for any store and any tape), and each of the three is reached by a
suitable tape. -/
theorem c5_inline_option_list :
    (∀ (pfw : Chars → St → Except ExpErr (Chars × St)) (interior : Chars) (st : St),
      hasChar (jsTrim interior) '|' = true →
      (splitOptions '|' (jsTrim interior) = [] →
        resolveOneF pfw interior st = .ok (matchText interior, st)) ∧
      (splitOptions '|' (jsTrim interior) ≠ [] →
        resolveOneF pfw interior st =
          .ok ((splitOptions '|' (jsTrim interior)).getD
              (st.tape.headD 0 % (splitOptions '|' (jsTrim interior)).length) [],
            { st with tape := st.tape.tail }) ∧
        (splitOptions '|' (jsTrim interior)).getD
            (st.tape.headD 0 % (splitOptions '|' (jsTrim interior)).length) [] ∈
          splitOptions '|' (jsTrim interior))) ∧
    (∀ st : St, ∃ r st',
      processWildcards 1 "<red|blue|green>".data st = .ok (r, st') ∧
      (r = "red".data ∨ r = "blue".data ∨ r = "green".data)) ∧
    (∀ k : Nat, ∃ st',
      processWildcards 1 "<red|blue|green>".data (emptyStT [k]) =
        .ok (["red".data, "blue".data, "green".data].getD (k % 3) [], st')) := by
  have hfold : ∀ r : Chars,
      replaceLast (matchText "red|blue|green".data) r "<red|blue|green>".data = r := by
    intro r
    unfold replaceLast
    have hidx : lastIndexOf (matchText "red|blue|green".data) "<red|blue|green>".data =
        some 0 := by decide
    rw [hidx]
    dsimp only
    have hdrop : ("<red|blue|green>".data : Chars).drop
        (0 + (matchText "red|blue|green".data).length) = [] := by decide
    rw [hdrop]
    simp
  have hpfw : ∀ st : St, processFileWildcards 1 "<red|blue|green>".data st =
      .ok (["red".data, "blue".data, "green".data].getD (st.tape.headD 0 % 3) [],
        { st with tape := st.tape.tail }) := by
    intro st
    have hone : resolveOneF (processFileWildcards 0) "red|blue|green".data st =
        .ok (["red".data, "blue".data, "green".data].getD (st.tape.headD 0 % 3) [],
          { st with tape := st.tape.tail }) := by
      simp only [resolveOneF]
      rw [if_pos (by decide)]
      have hopts : splitOptions '|' (jsTrim "red|blue|green".data) =
          ["red".data, "blue".data, "green".data] := by decide
      rw [if_neg (by rw [hopts]; decide)]
      rw [hopts]
      simp only [randIndex]
      rfl
    have hsc : scanInteriors "<red|blue|green>".data = ["red|blue|green".data] := by decide
    have := processFileWildcards_single hsc hone
    rw [hfold] at this
    exact this
  refine ⟨?_, ?_, ?_⟩
  · intro pfw interior st hpipe
    constructor
    · intro hopts
      simp only [resolveOneF]
      rw [if_pos hpipe, if_pos (by rw [hopts]; rfl)]
    · intro hopts
      have hnem : ¬ (splitOptions '|' (jsTrim interior)).isEmpty = true := by
        simpa [List.isEmpty_iff] using hopts
      constructor
      · simp only [resolveOneF]
        rw [if_pos hpipe, if_neg hnem]
        simp only [randIndex]
      · exact getD_mod_mem (by simpa [List.length_eq_zero] using hopts) (st.tape.headD 0)
  · intro st
    have h1 := hpfw st
    have h3 : st.tape.headD 0 % 3 = 0 ∨ st.tape.headD 0 % 3 = 1 ∨ st.tape.headD 0 % 3 = 2 := by
      omega
    rcases h3 with h3 | h3 | h3
    · rw [h3] at h1
      have h2 := processWildcards_succ_of_pfw (by decide) h1 (by decide) (by decide)
      have hcn : commaNormalize (["red".data, "blue".data, "green".data].getD 0 []) =
          "red".data := by decide
      rw [hcn] at h2
      exact ⟨"red".data, _, h2, Or.inl rfl⟩
    · rw [h3] at h1
      have h2 := processWildcards_succ_of_pfw (by decide) h1 (by decide) (by decide)
      have hcn : commaNormalize (["red".data, "blue".data, "green".data].getD 1 []) =
          "blue".data := by decide
      rw [hcn] at h2
      exact ⟨"blue".data, _, h2, Or.inr (Or.inl rfl)⟩
    · rw [h3] at h1
      have h2 := processWildcards_succ_of_pfw (by decide) h1 (by decide) (by decide)
      have hcn : commaNormalize (["red".data, "blue".data, "green".data].getD 2 []) =
          "green".data := by decide
      rw [hcn] at h2
      exact ⟨"green".data, _, h2, Or.inr (Or.inr rfl)⟩
  · intro k
    have h1 := hpfw (emptyStT [k])
    have hhead : (emptyStT [k]).tape.headD 0 = k := rfl
    rw [hhead] at h1
    have h3 : k % 3 = 0 ∨ k % 3 = 1 ∨ k % 3 = 2 := by omega
    rcases h3 with h3 | h3 | h3
    · rw [h3] at h1 ⊢
      have h2 := processWildcards_succ_of_pfw (by decide) h1 (by decide) (by decide)
      have hcn : commaNormalize (["red".data, "blue".data, "green".data].getD 0 []) =
          ["red".data, "blue".data, "green".data].getD 0 [] := by decide
      rw [hcn] at h2
      exact ⟨_, h2⟩
    · rw [h3] at h1 ⊢
      have h2 := processWildcards_succ_of_pfw (by decide) h1 (by decide) (by decide)
      have hcn : commaNormalize (["red".data, "blue".data, "green".data].getD 1 []) =
          ["red".data, "blue".data, "green".data].getD 1 [] := by decide
      rw [hcn] at h2
      exact ⟨_, h2⟩
    · rw [h3] at h1 ⊢
      have h2 := processWildcards_succ_of_pfw (by decide) h1 (by decide) (by decide)
      have hcn : commaNormalize (["red".data, "blue".data, "green".data].getD 2 []) =
          ["red".data, "blue".data, "green".data].getD 2 [] := by decide
      rw [hcn] at h2
      exact ⟨_, h2⟩

theorem c5_witness :
    hasChar (jsTrim "red|blue|green".data) '|' = true ∧
    resolveOneF (processFileWildcards 0) "red|blue|green".data (emptyStT [1]) =
      .ok ((splitOptions '|' (jsTrim "red|blue|green".data)).getD
          ((emptyStT [1]).tape.headD 0 % (splitOptions '|' (jsTrim "red|blue|green".data)).length)
          [],
        { emptyStT [1] with tape := (emptyStT [1]).tape.tail }) := by
  refine ⟨by decide, ?_⟩
  exact ((c5_inline_option_list.1 (processFileWildcards 0) "red|blue|green".data
    (emptyStT [1]) (by decide)).2 (by decide)).1

theorem mem_tail_dropLast_iff {l : Chars} :
    '/' ∈ l.tail.dropLast ↔ ∃ u v : Chars, l = u ++ '/' :: v ∧ u ≠ [] ∧ v ≠ [] := by
  constructor
  · intro h
    cases l with
    | nil => simp at h
    | cons c0 rest =>
      simp only [List.tail_cons] at h
      have hrest_ne : rest ≠ [] := by
        intro hr
        rw [hr] at h
        simp at h
      obtain ⟨u', v', hsplit⟩ := List.append_of_mem h
      obtain ⟨x, hx⟩ : ∃ x, rest.dropLast ++ [x] = rest :=
        ⟨_, List.dropLast_append_getLast hrest_ne⟩
      rw [hsplit] at hx
      refine ⟨c0 :: u', v' ++ [x], ?_, by simp, by simp⟩
      rw [← hx]
      simp
  · rintro ⟨u, v, rfl, hu, hv⟩
    cases u with
    | nil => exact absurd rfl hu
    | cons a u' =>
      simp only [List.cons_append, List.tail_cons]
      rw [List.dropLast_append_of_ne_nil _ (by simp), List.dropLast_cons_of_ne_nil hv]
      simp

theorem parenAux_open (xs : Chars) (st : St) :
    parenAux st none ('(' :: xs) = parenAux st (some []) xs := rfl

theorem parenAux_close (a : Chars) (st : St) :
    parenAux st (some a) [')'] =
      if hasMidSlash a.reverse = true then
        ((parenReplace a.reverse st).1 ++ [], (parenReplace a.reverse st).2)
      else ('(' :: a.reverse ++ ')' :: [], st) := rfl

/-- C6 (counterexample): `(a/)` is a parenthesized span with no inner
parentheses and at least one `/`, yet stage 2 leaves it completely
unchanged (the regex `\(([^()]+\/[^()]+)\)` needs text on both sides of a
slash), while the claim demands it be replaced by its interior `a/`. -/
theorem c6_counterexample :
    processParenthesisWildcards "(a/)".data (emptyStT []) = ("(a/)".data, emptyStT []) ∧
    hasChar "a/".data '/' = true ∧
    ("(a/)".data : Chars) ≠ "a/".data :=
  ⟨by decide, by decide, by decide⟩

/-- C6 (amended): stage 2 matches a parenthesis-free span `(run)` exactly
when `run` contains a `/` with at least one character on each side
(`hasMidSlash`, equivalent to `run = u ++ / :: v` with `u`, `v` nonempty).
A matched span with two or more trimmed nonempty options is replaced by
`options[draw % length]` (an in-range random index); with fewer than two
options it is replaced by the bare interior; an unmatched span - no slash,
as in `(onlyoption)`, or a slash only at the edge, as in `(a/)` - passes
through unchanged. -/
theorem c6_paren_groups :
    (∀ run : Chars, hasMidSlash run = true ↔
      ∃ u v : Chars, run = u ++ '/' :: v ∧ u ≠ [] ∧ v ≠ []) ∧
    (∀ (run : Chars) (st : St), (∀ c ∈ run, ¬c = '(' ∧ ¬c = ')') →
      (hasMidSlash run = false →
        processParenthesisWildcards ('(' :: run ++ [')']) st = ('(' :: run ++ [')'], st)) ∧
      (hasMidSlash run = true → (splitOptions '/' run).length ≤ 1 →
        processParenthesisWildcards ('(' :: run ++ [')']) st = (run, st)) ∧
      (hasMidSlash run = true → 1 < (splitOptions '/' run).length →
        processParenthesisWildcards ('(' :: run ++ [')']) st =
          ((splitOptions '/' run).getD (st.tape.headD 0 % (splitOptions '/' run).length) [],
            { st with tape := st.tape.tail }) ∧
        (splitOptions '/' run).getD (st.tape.headD 0 % (splitOptions '/' run).length) [] ∈
          splitOptions '/' run)) ∧
    (∀ st : St, processWildcards 1 "(onlyoption)".data st =
      .ok ("(onlyoption)".data, st)) := by
  refine ⟨?_, ?_, ?_⟩
  · intro run
    rw [hasMidSlash, hasChar_iff]
    exact mem_tail_dropLast_iff
  · intro run st hnp
    have hred : processParenthesisWildcards ('(' :: run ++ [')']) st =
        parenAux st (some run.reverse) [')'] := by
      simp only [processParenthesisWildcards]
      rw [List.cons_append, parenAux_open, parenAux_accum run hnp [] [')'] st,
        List.append_nil]
    refine ⟨?_, ?_, ?_⟩
    · intro hms
      rw [hred, parenAux_close, List.reverse_reverse, if_neg (by rw [hms]; decide)]
    · intro hms hle
      rw [hred, parenAux_close, List.reverse_reverse, if_pos hms]
      simp only [parenReplace]
      rw [if_pos hle]
      simp
    · intro hms hgt
      constructor
      · rw [hred, parenAux_close, List.reverse_reverse, if_pos hms]
        simp only [parenReplace]
        rw [if_neg (by omega)]
        simp [randIndex]
      · exact getD_mod_mem (by omega) (st.tape.headD 0)
  · intro st
    have h1 : processFileWildcards 1 "(onlyoption)".data st =
        .ok ("(onlyoption)".data, st) :=
      processFileWildcards_noMatches (by decide)
    have h2 := processWildcards_succ_of_pfw (by decide) h1 (by decide) (by decide)
    have hcn : commaNormalize "(onlyoption)".data = "(onlyoption)".data := by decide
    rw [hcn] at h2
    exact h2

theorem c6_witness :
    hasMidSlash "a, b/c, d".data = true ∧
    (∀ c ∈ ("a, b/c, d".data : Chars), ¬c = '(' ∧ ¬c = ')') ∧
    processParenthesisWildcards ('(' :: "a, b/c, d".data ++ [')']) (emptyStT [1]) =
      ((splitOptions '/' "a, b/c, d".data).getD
        ((emptyStT [1]).tape.headD 0 % (splitOptions '/' "a, b/c, d".data).length) [],
        { emptyStT [1] with tape := (emptyStT [1]).tape.tail }) := by
  refine ⟨by decide, by decide, ?_⟩
  exact (((c6_paren_groups.2.1 "a, b/c, d".data (emptyStT [1]) (by decide)).2.2
    (by decide) (by decide)).1)

/-- C7: stage 3 slash-splits a trimmed comma segment only under all four
guards - it has a `/`, does not start with `http`, has no `://`, has no
space; a segment failing any guard (or yielding fewer than two trimmed
nonempty options) becomes just its trimmed self; a qualifying segment
becomes `options[draw % length]`, an in-range random index.  Segments are
rejoined with a comma and a space whatever the original spacing:
`expand "see http://a/b, tag2"` leaves the URL segment untouched, and
`expand "a ,  b"` returns `"a, b"`. -/
theorem c7_simple_slash_tags :
    (∀ (tag : Chars) (st : St),
      (¬ simpleCond (jsTrim tag) = true → processTag tag st = (jsTrim tag, st)) ∧
      (hasSubstr "://".data (jsTrim tag) = true → processTag tag st = (jsTrim tag, st)) ∧
      (hasChar (jsTrim tag) ' ' = true → processTag tag st = (jsTrim tag, st)) ∧
      ("http".data.isPrefixOf (jsTrim tag) = true → processTag tag st = (jsTrim tag, st)) ∧
      (¬ hasChar (jsTrim tag) '/' = true → processTag tag st = (jsTrim tag, st)) ∧
      (simpleCond (jsTrim tag) = true → (splitOptions '/' (jsTrim tag)).length ≤ 1 →
        processTag tag st = (jsTrim tag, st)) ∧
      (simpleCond (jsTrim tag) = true → 1 < (splitOptions '/' (jsTrim tag)).length →
        processTag tag st =
          ((splitOptions '/' (jsTrim tag)).getD
              (st.tape.headD 0 % (splitOptions '/' (jsTrim tag)).length) [],
            { st with tape := st.tape.tail }) ∧
        (splitOptions '/' (jsTrim tag)).getD
            (st.tape.headD 0 % (splitOptions '/' (jsTrim tag)).length) [] ∈
          splitOptions '/' (jsTrim tag))) ∧
    (∀ st : St, processWildcards 1 "see http://a/b, tag2".data st =
      .ok ("see http://a/b, tag2".data, st)) ∧
    (∀ st : St, processWildcards 1 "a ,  b".data st = .ok ("a, b".data, st)) := by
  refine ⟨?_, ?_, ?_⟩
  · intro tag st
    refine ⟨fun h => processTag_noCond h, ?_, ?_, ?_, ?_, ?_, ?_⟩
    · intro h
      exact processTag_noCond (by simp [simpleCond, h])
    · intro h
      exact processTag_noCond (by simp [simpleCond, h])
    · intro h
      exact processTag_noCond (by simp [simpleCond, h])
    · intro h
      have hx : hasChar (jsTrim tag) '/' = false := by simpa using h
      exact processTag_noCond (by simp [simpleCond, hx])
    · intro h hle
      simp only [processTag]
      rw [if_pos h, if_neg (by omega)]
    · intro h hgt
      constructor
      · simp only [processTag]
        rw [if_pos h, if_pos hgt]
        simp only [randIndex]
      · exact getD_mod_mem (by omega) (st.tape.headD 0)
  · intro st
    have h1 : processFileWildcards 1 "see http://a/b, tag2".data st =
        .ok ("see http://a/b, tag2".data, st) :=
      processFileWildcards_noMatches (by decide)
    have h2 := processWildcards_succ_of_pfw (by decide) h1 (by decide) (by decide)
    have hcn : commaNormalize "see http://a/b, tag2".data =
        "see http://a/b, tag2".data := by decide
    rw [hcn] at h2
    exact h2
  · intro st
    have h1 : processFileWildcards 1 "a ,  b".data st = .ok ("a ,  b".data, st) :=
      processFileWildcards_noMatches (by decide)
    have h2 := processWildcards_succ_of_pfw (by decide) h1 (by decide) (by decide)
    have hcn : commaNormalize "a ,  b".data = "a, b".data := by decide
    rw [hcn] at h2
    exact h2

theorem c7_witness :
    hasSubstr "://".data (jsTrim " http://a/b ".data) = true ∧
    processTag " http://a/b ".data (emptyStT [3]) =
      (jsTrim " http://a/b ".data, emptyStT [3]) ∧
    simpleCond (jsTrim "r/g/b".data) = true ∧
    processTag "r/g/b".data (emptyStT [4]) =
      ((splitOptions '/' (jsTrim "r/g/b".data)).getD
          ((emptyStT [4]).tape.headD 0 % (splitOptions '/' (jsTrim "r/g/b".data)).length) [],
        { emptyStT [4] with tape := (emptyStT [4]).tape.tail }) := by
  refine ⟨by decide, ?_, by decide, ?_⟩
  · exact (c7_simple_slash_tags.1 " http://a/b ".data (emptyStT [3])).2.1 (by decide)
  · exact (((c7_simple_slash_tags.1 "r/g/b".data (emptyStT [4])).2.2.2.2.2.2
      (by decide) (by decide)).1)

/-- C8: `getFileByPath` resolves a path case-insensitively: it returns a
stored file whose lowercased full `folder/name` form or lowercased bare
name equals the trimmed lowercased query, and among matching files the
first in store iteration order; if no stored file matches, the lookup is
`none` and both line accessors return null without touching the state.
With two files named `x` in folders `f1` and `f2`, the query `" X "`
resolves to the first. -/
theorem c8_file_lookup :
    (∀ (st : St) (path : Chars) (f : FileMeta),
      getFileByPath st path = some f →
        f ∈ st.files ∧ fileMatches f (lowerChars (jsTrim path)) = true ∧
        ∃ pre post, st.files = pre ++ f :: post ∧
          ∀ g ∈ pre, fileMatches g (lowerChars (jsTrim path)) = false) ∧
    (∀ (st : St) (path : Chars),
      (∀ f ∈ st.files, fileMatches f (lowerChars (jsTrim path)) = false) →
      getFileByPath st path = none) ∧
    (∀ (path : Chars) (st : St), getFileByPath st path = none →
      getRandomLine path st = .ok (none, st) ∧ getSequentialLine path st = .ok (none, st)) ∧
    getFileByPath twoSt " X ".data = some ⟨"1".data, "x".data, "f1".data, 1⟩ := by
  refine ⟨?_, ?_, ?_, by decide⟩
  · intro st path f h
    simp only [getFileByPath] at h
    obtain ⟨hpred, pre, post, hsplit, hpre⟩ := find?_first h
    refine ⟨?_, hpred, pre, post, hsplit, fun g hg => ?_⟩
    · rw [hsplit]
      exact List.mem_append.mpr (Or.inr (List.mem_cons_self _ _))
    · simpa using hpre g hg
  · intro st path h
    simp only [getFileByPath]
    rw [List.find?_eq_none]
    intro f hf
    simp [h f hf]
  · intro path st h
    constructor
    · unfold getRandomLine
      rw [h]
    · unfold getSequentialLine
      rw [h]

theorem c8_witness :
    (⟨"1".data, "x".data, "f1".data, 1⟩ : FileMeta) ∈ twoSt.files ∧
    fileMatches ⟨"1".data, "x".data, "f1".data, 1⟩ (lowerChars (jsTrim " X ".data)) = true := by
  have h := c8_file_lookup.1 twoSt " X ".data ⟨"1".data, "x".data, "f1".data, 1⟩ (by decide)
  exact ⟨h.1, h.2.1⟩

/-- C9 (counterexample): `resetSequentialCounter` called with the empty
string - a path value - clears EVERY counter, because JS `if (path)` is
false for `""`: the counter of the unrelated path `a` drops from 5 to 0,
contradicting "removes exactly that path's counter entry". -/
theorem c9_counterexample :
    lookupCounter (⟨[], [], [("a".data, 5)], []⟩ : St).sequentialCounters "a".data = 5 ∧
    resetWildcardCounters (some []) ⟨[], [], [("a".data, 5)], []⟩ = ⟨[], [], [], []⟩ ∧
    lookupCounter
      (resetWildcardCounters (some []) ⟨[], [], [("a".data, 5)], []⟩).sequentialCounters
      "a".data = 0 ∧
    ("a".data : Chars) ≠ [] :=
  ⟨by decide, by decide, by decide, by decide⟩

/-- C9 (amended): `resetWildcardCounters` delegates to the store's
`resetSequentialCounter`; given a NON-EMPTY path it removes exactly that
path's counter entry - the next sequential read of that path restarts at
index 0, every other path's counter and the files and contents are
untouched; with no argument (or the empty string, which JS treats as
falsy) it clears all counters. -/
theorem c9_reset_counters :
    (∀ (st : St) (p : Chars), p ≠ [] →
      lookupCounter (resetWildcardCounters (some p) st).sequentialCounters p = 0 ∧
      (∀ q, q ≠ p →
        lookupCounter (resetWildcardCounters (some p) st).sequentialCounters q =
          lookupCounter st.sequentialCounters q) ∧
      (resetWildcardCounters (some p) st).files = st.files ∧
      (resetWildcardCounters (some p) st).contents = st.contents) ∧
    (∀ st : St, (resetWildcardCounters none st).sequentialCounters = []) ∧
    (∀ (st : St) (p : Chars) (meta : FileMeta) (content : List Chars), p ≠ [] →
      getFileByPath st p = some meta → loadContent st meta.id = .ok content →
      content ≠ [] →
      getSequentialLine p (resetWildcardCounters (some p) st) =
        .ok (some (content.getD 0 []),
          { resetWildcardCounters (some p) st with
              sequentialCounters :=
                bump (resetWildcardCounters (some p) st).sequentialCounters p })) := by
  have hre : ∀ (st : St) (p : Chars), p ≠ [] →
      resetWildcardCounters (some p) st =
        { st with sequentialCounters :=
            st.sequentialCounters.filter (fun q => !decide (q.1 = p)) } := by
    intro st p hp
    simp only [resetWildcardCounters, resetSequentialCounter]
    rw [if_neg (by simpa [List.isEmpty_iff] using hp)]
  refine ⟨?_, fun st => rfl, ?_⟩
  · intro st p hp
    rw [hre st p hp]
    exact ⟨lookupCounter_erase_self _ _,
      fun q hq => lookupCounter_erase_ne _ _ _ hq, rfl, rfl⟩
  · intro st p meta content hp hf hc hne
    rw [hre st p hp]
    have hf' : getFileByPath
        { st with sequentialCounters :=
            st.sequentialCounters.filter (fun q => !decide (q.1 = p)) } p = some meta := hf
    have hc' : loadContent
        { st with sequentialCounters :=
            st.sequentialCounters.filter (fun q => !decide (q.1 = p)) } meta.id =
        .ok content := hc
    have h := getSequentialLine_eq hf' hc' hne
    have hlz : lookupCounter
        (st.sequentialCounters.filter (fun q => !decide (q.1 = p))) p % content.length = 0 := by
      rw [lookupCounter_erase_self]
      exact Nat.zero_mod _
    rw [hlz] at h
    exact h

theorem c9_witness :
    ("hair".data : Chars) ≠ [] ∧
    lookupCounter
      (resetWildcardCounters (some "hair".data) (hairStC 3)).sequentialCounters
      "hair".data = 0 ∧
    getSequentialLine "hair".data (resetWildcardCounters (some "hair".data) (hairStC 3)) =
      .ok (some (["a".data, "b".data, "c".data].getD 0 []),
        { resetWildcardCounters (some "hair".data) (hairStC 3) with
            sequentialCounters :=
              bump (resetWildcardCounters (some "hair".data) (hairStC 3)).sequentialCounters
                "hair".data }) := by
  refine ⟨by decide, (c9_reset_counters.1 (hairStC 3) "hair".data (by decide)).1, ?_⟩
  exact c9_reset_counters.2.2 (hairStC 3) "hair".data ⟨"1".data, "hair".data, [], 3⟩
    ["a".data, "b".data, "c".data] (by decide) (by decide) (by decide) (by decide)

theorem processParen_store (s : Chars) (st : St) :
    (processParenthesisWildcards s st).2.files = st.files ∧
    (processParenthesisWildcards s st).2.contents = st.contents ∧
    (processParenthesisWildcards s st).2.sequentialCounters = st.sequentialCounters :=
  parenAux_store s none st

theorem processSimple_store (s : Chars) (st : St) :
    (processSimpleWildcards s st).2.files = st.files ∧
    (processSimpleWildcards s st).2.contents = st.contents ∧
    (processSimpleWildcards s st).2.sequentialCounters = st.sequentialCounters :=
  processTags_store (splitOnChar ',' s) st

theorem resolveOneF_logged {pfw : Chars → St → Except ExpErr (Chars × St)}
    {pfwL : Chars → St → Except ExpErr ((Chars × St) × List Chars)}
    (hcb : ∀ p st, pfw p st = exceptFst (pfwL p st)) (interior : Chars) (st : St) :
    resolveOneF pfw interior st = exceptFst (resolveOneL pfwL interior st) := by
  simp only [resolveOneF, resolveOneL]
  by_cases h1 : hasChar (jsTrim interior) '|' = true
  · rw [if_pos h1, if_pos h1]
    by_cases h2 : (splitOptions '|' (jsTrim interior)).isEmpty = true
    · rw [if_pos h2, if_pos h2]
      rfl
    · rw [if_neg h2, if_neg h2]
      rfl
  · rw [if_neg h1, if_neg h1]
    by_cases hseq : ['*'].isPrefixOf (jsTrim interior) = true
    · simp only [hseq, if_true]
      by_cases hpath : (normalizeFragmentPath (jsTrim interior).tail).isEmpty = true
      · rw [if_pos hpath, if_pos hpath]
        rfl
      · rw [if_neg hpath, if_neg hpath]
        cases hr : getSequentialLine (normalizeFragmentPath (jsTrim interior).tail) st with
        | error e => rfl
        | ok v =>
          obtain ⟨v1, st1⟩ := v
          cases v1 with
          | none => rfl
          | some line =>
            dsimp only
            rw [hcb line st1]
            cases hL : pfwL line st1 with
            | error e => rfl
            | ok w =>
              obtain ⟨⟨r2, st2⟩, log2⟩ := w
              rfl
    · simp only [hseq, Bool.false_eq_true, if_false]
      by_cases hpath : (normalizeFragmentPath (jsTrim interior)).isEmpty = true
      · rw [if_pos hpath, if_pos hpath]
        rfl
      · rw [if_neg hpath, if_neg hpath]
        cases hr : getRandomLine (normalizeFragmentPath (jsTrim interior)) st with
        | error e => rfl
        | ok v =>
          obtain ⟨v1, st1⟩ := v
          cases v1 with
          | none => rfl
          | some line => exact hcb line st1

theorem resolveAllF_logged {pfw : Chars → St → Except ExpErr (Chars × St)}
    {pfwL : Chars → St → Except ExpErr ((Chars × St) × List Chars)}
    (hcb : ∀ p st, pfw p st = exceptFst (pfwL p st)) :
    ∀ (l : List Chars) (st : St),
      resolveAllF pfw l st = exceptFst (resolveAllL pfwL l st) := by
  intro l
  induction l with
  | nil => intro st; rfl
  | cons interior rest ih =>
    intro st
    simp only [resolveAllF, resolveAllL]
    rw [resolveOneF_logged hcb interior st]
    cases h1 : resolveOneL pfwL interior st with
    | error e => rfl
    | ok v =>
      obtain ⟨⟨repl, st1⟩, log1⟩ := v
      dsimp only [exceptFst]
      rw [ih st1]
      cases h2 : resolveAllL pfwL rest st1 with
      | error e => rfl
      | ok w =>
        obtain ⟨⟨reps, st2⟩, log2⟩ := w
        rfl

theorem processFileWildcards_logged :
    ∀ (fuel : Nat) (p : Chars) (st : St),
      processFileWildcards fuel p st = exceptFst (processFileWildcardsL fuel p st) := by
  intro fuel
  induction fuel with
  | zero => intro p st; rfl
  | succ n ih =>
    intro p st
    simp only [processFileWildcards, processFileWildcardsL]
    by_cases h1 : (scanInteriors p).isEmpty = true
    · rw [if_pos h1, if_pos h1]
      rfl
    · rw [if_neg h1, if_neg h1]
      rw [resolveAllF_logged (fun a b => ih a b) (scanInteriors p) st]
      cases h2 : resolveAllL (processFileWildcardsL n) (scanInteriors p) st with
      | error e => rfl
      | ok w =>
        obtain ⟨⟨reps, st2⟩, log⟩ := w
        rfl

theorem processWildcards_logged (fuel : Nat) (p : Chars) (st : St) :
    processWildcards fuel p st = exceptFst (processWildcardsL fuel p st) := by
  simp only [processWildcards, processWildcardsL]
  by_cases h0 : p.isEmpty = true
  · rw [if_pos h0, if_pos h0]
    rfl
  · rw [if_neg h0, if_neg h0]
    rw [processFileWildcards_logged fuel p st]
    cases h1 : processFileWildcardsL fuel p st with
    | error e => rfl
    | ok w =>
      obtain ⟨⟨r1, st1⟩, log⟩ := w
      rfl

theorem resolveOneL_counters {pfwL : Chars → St → Except ExpErr ((Chars × St) × List Chars)}
    (hcb : ∀ p st r st' log, pfwL p st = .ok ((r, st'), log) →
      st'.sequentialCounters = log.foldl bump st.sequentialCounters ∧
      ∀ q ∈ log, (∃ t, q = normalizeFragmentPath t) ∧ q ≠ [])
    {interior : Chars} {st : St} {r : Chars} {st' : St} {log : List Chars}
    (h : resolveOneL pfwL interior st = .ok ((r, st'), log)) :
    st'.sequentialCounters = log.foldl bump st.sequentialCounters ∧
    ∀ q ∈ log, (∃ t, q = normalizeFragmentPath t) ∧ q ≠ [] := by
  simp only [resolveOneL] at h
  by_cases h1 : hasChar (jsTrim interior) '|' = true
  · rw [if_pos h1] at h
    by_cases h2 : (splitOptions '|' (jsTrim interior)).isEmpty = true
    · rw [if_pos h2] at h
      simp only [Except.ok.injEq, Prod.mk.injEq] at h
      obtain ⟨⟨-, hst⟩, hlog⟩ := h
      rw [← hst, ← hlog]
      exact ⟨rfl, by simp⟩
    · rw [if_neg h2] at h
      simp only [randIndex, Except.ok.injEq, Prod.mk.injEq] at h
      obtain ⟨⟨-, hst⟩, hlog⟩ := h
      rw [← hst, ← hlog]
      exact ⟨rfl, by simp⟩
  · rw [if_neg h1] at h
    by_cases hseq : ['*'].isPrefixOf (jsTrim interior) = true
    · simp only [hseq, if_true] at h
      by_cases hpath : (normalizeFragmentPath (jsTrim interior).tail).isEmpty = true
      · rw [if_pos hpath] at h
        simp only [Except.ok.injEq, Prod.mk.injEq] at h
        obtain ⟨⟨-, hst⟩, hlog⟩ := h
        rw [← hst, ← hlog]
        exact ⟨rfl, by simp⟩
      · rw [if_neg hpath] at h
        cases hr : getSequentialLine (normalizeFragmentPath (jsTrim interior).tail) st with
        | error e => rw [hr] at h; simp at h
        | ok v =>
          rw [hr] at h
          obtain ⟨v1, st1⟩ := v
          cases v1 with
          | none =>
            dsimp only at h
            simp only [Except.ok.injEq, Prod.mk.injEq] at h
            obtain ⟨⟨-, hst⟩, hlog⟩ := h
            rw [← hst, ← hlog, getSequentialLine_ok_none hr]
            exact ⟨rfl, by simp⟩
          | some line =>
            dsimp only at h
            cases hL : pfwL line st1 with
            | error e => rw [hL] at h; simp at h
            | ok w =>
              rw [hL] at h
              obtain ⟨⟨r2, st2⟩, log2⟩ := w
              dsimp only at h
              simp only [Except.ok.injEq, Prod.mk.injEq] at h
              obtain ⟨⟨-, hst⟩, hlog⟩ := h
              obtain ⟨hrec1, hrec2⟩ := hcb line st1 r2 st2 log2 hL
              obtain ⟨hst1, -⟩ := getSequentialLine_ok_some hr
              constructor
              · rw [← hst, ← hlog, List.foldl_cons, hrec1, hst1]
              · intro q hq
                rw [← hlog] at hq
                rcases List.mem_cons.mp hq with hq | hq
                · subst hq
                  refine ⟨⟨(jsTrim interior).tail, rfl⟩, ?_⟩
                  intro hnil
                  rw [hnil] at hpath
                  exact hpath rfl
                · exact hrec2 q hq
    · simp only [hseq, Bool.false_eq_true, if_false] at h
      by_cases hpath : (normalizeFragmentPath (jsTrim interior)).isEmpty = true
      · rw [if_pos hpath] at h
        simp only [Except.ok.injEq, Prod.mk.injEq] at h
        obtain ⟨⟨-, hst⟩, hlog⟩ := h
        rw [← hst, ← hlog]
        exact ⟨rfl, by simp⟩
      · rw [if_neg hpath] at h
        cases hr : getRandomLine (normalizeFragmentPath (jsTrim interior)) st with
        | error e => rw [hr] at h; simp at h
        | ok v =>
          rw [hr] at h
          obtain ⟨v1, st1⟩ := v
          cases v1 with
          | none =>
            dsimp only at h
            simp only [Except.ok.injEq, Prod.mk.injEq] at h
            obtain ⟨⟨-, hst⟩, hlog⟩ := h
            rw [← hst, ← hlog, getRandomLine_ok_none hr]
            exact ⟨rfl, by simp⟩
          | some line =>
            dsimp only at h
            obtain ⟨hrec1, hrec2⟩ := hcb line st1 r st' log h
            obtain ⟨hst1, -⟩ := getRandomLine_ok_some hr
            refine ⟨?_, hrec2⟩
            rw [hrec1, hst1]

theorem resolveAllL_counters {pfwL : Chars → St → Except ExpErr ((Chars × St) × List Chars)}
    (hcb : ∀ p st r st' log, pfwL p st = .ok ((r, st'), log) →
      st'.sequentialCounters = log.foldl bump st.sequentialCounters ∧
      ∀ q ∈ log, (∃ t, q = normalizeFragmentPath t) ∧ q ≠ []) :
    ∀ {l : List Chars} {st : St} {reps : List (Chars × Chars)} {st' : St} {log : List Chars},
      resolveAllL pfwL l st = .ok ((reps, st'), log) →
      st'.sequentialCounters = log.foldl bump st.sequentialCounters ∧
      ∀ q ∈ log, (∃ t, q = normalizeFragmentPath t) ∧ q ≠ [] := by
  intro l
  induction l with
  | nil =>
    intro st reps st' log h
    simp only [resolveAllL, Except.ok.injEq, Prod.mk.injEq] at h
    obtain ⟨⟨-, hst⟩, hlog⟩ := h
    rw [← hst, ← hlog]
    exact ⟨rfl, by simp⟩
  | cons interior rest ih =>
    intro st reps st' log h
    simp only [resolveAllL] at h
    cases h1 : resolveOneL pfwL interior st with
    | error e => rw [h1] at h; simp at h
    | ok v =>
      rw [h1] at h
      obtain ⟨⟨repl, st1⟩, log1⟩ := v
      dsimp only at h
      cases h2 : resolveAllL pfwL rest st1 with
      | error e => rw [h2] at h; simp at h
      | ok w =>
        rw [h2] at h
        obtain ⟨⟨reps2, st2⟩, log2⟩ := w
        dsimp only at h
        simp only [Except.ok.injEq, Prod.mk.injEq] at h
        obtain ⟨⟨-, hst⟩, hlog⟩ := h
        obtain ⟨ha1, ha2⟩ := resolveOneL_counters hcb h1
        obtain ⟨hb1, hb2⟩ := ih h2
        constructor
        · rw [← hst, ← hlog, List.foldl_append, hb1, ha1]
        · intro q hq
          rw [← hlog] at hq
          rcases List.mem_append.mp hq with hq | hq
          · exact ha2 q hq
          · exact hb2 q hq

theorem processFileWildcardsL_counters :
    ∀ (fuel : Nat) {p : Chars} {st : St} {r : Chars} {st' : St} {log : List Chars},
      processFileWildcardsL fuel p st = .ok ((r, st'), log) →
      st'.sequentialCounters = log.foldl bump st.sequentialCounters ∧
      ∀ q ∈ log, (∃ t, q = normalizeFragmentPath t) ∧ q ≠ [] := by
  intro fuel
  induction fuel with
  | zero => intro p st r st' log h; simp [processFileWildcardsL] at h
  | succ n ih =>
    intro p st r st' log h
    simp only [processFileWildcardsL] at h
    by_cases h1 : (scanInteriors p).isEmpty = true
    · rw [if_pos h1] at h
      simp only [Except.ok.injEq, Prod.mk.injEq] at h
      obtain ⟨⟨-, hst⟩, hlog⟩ := h
      rw [← hst, ← hlog]
      exact ⟨rfl, by simp⟩
    · rw [if_neg h1] at h
      cases h2 : resolveAllL (processFileWildcardsL n) (scanInteriors p) st with
      | error e => rw [h2] at h; simp at h
      | ok w =>
        rw [h2] at h
        obtain ⟨⟨reps, st2⟩, log2⟩ := w
        dsimp only at h
        simp only [Except.ok.injEq, Prod.mk.injEq] at h
        obtain ⟨⟨-, hst⟩, hlog⟩ := h
        obtain ⟨hb1, hb2⟩ := resolveAllL_counters (fun a b c d e hh => ih hh) h2
        rw [← hst, ← hlog]
        exact ⟨hb1, hb2⟩

theorem processWildcardsL_counters (fuel : Nat) {p : Chars} {st : St} {r : Chars}
    {st' : St} {log : List Chars}
    (h : processWildcardsL fuel p st = .ok ((r, st'), log)) :
    st'.sequentialCounters = log.foldl bump st.sequentialCounters ∧
    ∀ q ∈ log, (∃ t, q = normalizeFragmentPath t) ∧ q ≠ [] := by
  simp only [processWildcardsL] at h
  by_cases hne : p.isEmpty = true
  · rw [if_pos hne] at h
    simp only [Except.ok.injEq, Prod.mk.injEq] at h
    obtain ⟨⟨-, hst⟩, hlog⟩ := h
    rw [← hst, ← hlog]
    exact ⟨rfl, by simp⟩
  · rw [if_neg hne] at h
    cases h1 : processFileWildcardsL fuel p st with
    | error e => rw [h1] at h; simp at h
    | ok w =>
      rw [h1] at h
      obtain ⟨⟨r1, st1⟩, log1⟩ := w
      dsimp only at h
      obtain ⟨r2, st2, hpp⟩ : ∃ a b, processParenthesisWildcards r1 st1 = (a, b) := ⟨_, _, rfl⟩
      rw [hpp] at h
      dsimp only at h
      obtain ⟨r3, st3, hps⟩ : ∃ a b, processSimpleWildcards r2 st2 = (a, b) := ⟨_, _, rfl⟩
      rw [hps] at h
      dsimp only at h
      simp only [Except.ok.injEq, Prod.mk.injEq] at h
      obtain ⟨⟨-, hst⟩, hlog⟩ := h
      obtain ⟨hb1, hb2⟩ := processFileWildcardsL_counters fuel h1
      have s2 := processParen_store r1 st1
      rw [hpp] at s2
      have s3 := processSimple_store r2 st2
      rw [hps] at s3
      rw [← hst, ← hlog]
      refine ⟨?_, hb2⟩
      rw [s3.2.2, s2.2.2, hb1]

/-- C10: awaiting `expand` never changes the store's file list or any
fragment content; the sequential counter table evolves only by single
increments at nonempty normalized reference paths, and precisely at the
sequential references actually resolved during the call: the run of the
log-instrumented pipeline (`processWildcardsL`, the same computation
recording the normalized path at each `<*...>` match whose
`getSequentialLine` returns a line) produces the same result, and the
final counter table is the initial one bumped once at each logged path in
resolution order; and an expansion that can resolve no sequential
reference - no `<*...>` match in the prompt and none in any stored
fragment line - leaves the counter table entirely unchanged. -/
theorem c10_expand_frame :
    ∀ (fuel : Nat) (p : Chars) (st : St) (r : Chars) (st' : St),
      processWildcards fuel p st = .ok (r, st') →
      st'.files = st.files ∧ st'.contents = st.contents ∧
      CounterEvo st.sequentialCounters st'.sequentialCounters ∧
      (∃ log : List Chars,
        processWildcardsL fuel p st = .ok ((r, st'), log) ∧
        st'.sequentialCounters = log.foldl bump st.sequentialCounters ∧
        ∀ q ∈ log, (∃ t, q = normalizeFragmentPath t) ∧ q ≠ []) ∧
      (PromptSeqFree p → StoreSeqFree st →
        st'.sequentialCounters = st.sequentialCounters) := by
  intro fuel p st r st' h
  have hlogged : ∃ log : List Chars,
      processWildcardsL fuel p st = .ok ((r, st'), log) ∧
      st'.sequentialCounters = log.foldl bump st.sequentialCounters ∧
      ∀ q ∈ log, (∃ t, q = normalizeFragmentPath t) ∧ q ≠ [] := by
    have hE := processWildcards_logged fuel p st
    rw [h] at hE
    cases hwl : processWildcardsL fuel p st with
    | error e =>
      rw [hwl] at hE
      simp [exceptFst] at hE
    | ok w =>
      obtain ⟨⟨r1, st1⟩, log⟩ := w
      rw [hwl] at hE
      simp only [exceptFst, Except.ok.injEq, Prod.mk.injEq] at hE
      obtain ⟨hr1, hst1⟩ := hE
      rw [← hr1, ← hst1] at hwl
      obtain ⟨hc1, hc2⟩ := processWildcardsL_counters fuel hwl
      exact ⟨log, by rw [hr1, hst1], hc1, hc2⟩
  simp only [processWildcards] at h
  by_cases hne : p.isEmpty = true
  · rw [if_pos hne] at h
    simp only [Except.ok.injEq, Prod.mk.injEq] at h
    obtain ⟨-, hst⟩ := h
    subst hst
    exact ⟨rfl, rfl, counterEvo_refl _, hlogged, fun _ _ => rfl⟩
  · rw [if_neg hne] at h
    cases hpfw : processFileWildcards fuel p st with
    | error e => rw [hpfw] at h; simp at h
    | ok v =>
      rw [hpfw] at h
      obtain ⟨r1, st1⟩ := v
      dsimp only at h
      obtain ⟨r2, st2, hpp⟩ : ∃ a b, processParenthesisWildcards r1 st1 = (a, b) := ⟨_, _, rfl⟩
      rw [hpp] at h
      dsimp only at h
      obtain ⟨r3, st3, hps⟩ : ∃ a b, processSimpleWildcards r2 st2 = (a, b) := ⟨_, _, rfl⟩
      rw [hps] at h
      dsimp only at h
      simp only [Except.ok.injEq, Prod.mk.injEq] at h
      have hfr := processFileWildcards_frame fuel hpfw
      have s2 := processParen_store r1 st1
      rw [hpp] at s2
      have s3 := processSimple_store r2 st2
      rw [hps] at s3
      have hst : st' = st3 := h.2.symm
      subst hst
      refine ⟨?_, ?_, ?_, hlogged, ?_⟩
      · rw [s3.1, s2.1, hfr.1]
      · rw [s3.2.1, s2.2.1, hfr.2.1]
      · rw [s3.2.2, s2.2.2]
        exact hfr.2.2
      · intro hp hs
        rw [s3.2.2, s2.2.2]
        exact processFileWildcards_seqFree fuel hp hs hpfw

theorem c10_witness :
    (hairStC 1).files = (hairStC 0).files ∧
    (hairStC 1).contents = (hairStC 0).contents ∧
    CounterEvo (hairStC 0).sequentialCounters (hairStC 1).sequentialCounters ∧
    ∃ log : List Chars,
      processWildcardsL 2 "<*hair>".data (hairStC 0) = .ok (("a".data, hairStC 1), log) ∧
      (hairStC 1).sequentialCounters = log.foldl bump (hairStC 0).sequentialCounters ∧
      ∀ q ∈ log, (∃ t, q = normalizeFragmentPath t) ∧ q ≠ [] := by
  have h := c10_expand_frame 2 "<*hair>".data (hairStC 0) "a".data (hairStC 1) (by decide)
  exact ⟨h.1, h.2.1, h.2.2.1, h.2.2.2.1⟩

end NAIS2
